import Mathlib

/-!
Verification of the StegoX secure payload pipeline: binary codec with
end-marker framing, LSB embedding/extraction for image and audio carriers,
capacity arithmetic, password-keyed CBC encryption with a per-message IV,
and voice-gate similarity scoring.

Carriers are modelled as lists of natural numbers (the bit patterns of the
uint8 pixel channels, resp. of the int16 PCM samples), bit strings as lists
of booleans, and text as the list of its Unicode code points.  The external
AES block primitive and the SHA-256 digest are abstract parameters; the
repository code that composes them (key derivation, CBC chaining, PKCS#7
padding, base64 transport coding) is modelled concretely.
-/

set_option maxRecDepth 10000
set_option maxHeartbeats 2000000

namespace StegoX

/-- Numeric value of one bit (`int(bit)` on a '0'/'1' character). -/
def bitVal (b : Bool) : Nat := if b then 1 else 0

/-- `format(byte, '08b')`: the eight bits of a byte, most significant first. -/
def byteToBits (b : Nat) : List Bool :=
  [b / 128 % 2 == 1, b / 64 % 2 == 1, b / 32 % 2 == 1, b / 16 % 2 == 1,
   b / 8 % 2 == 1, b / 4 % 2 == 1, b / 2 % 2 == 1, b % 2 == 1]

/-- Concatenation of the 8-bit renderings of a byte sequence
(`''.join(format(byte, '08b') for byte in utf8_bytes)`). -/
def bytesToBits (bs : List Nat) : List Bool :=
  (bs.map byteToBits).flatten

/-- `int(byte, 2)` on an 8-character group, most significant bit first. -/
def bitsOfByte (b0 b1 b2 b3 b4 b5 b6 b7 : Bool) : Nat :=
  128 * bitVal b0 + 64 * bitVal b1 + 32 * bitVal b2 + 16 * bitVal b3 +
  8 * bitVal b4 + 4 * bitVal b5 + 2 * bitVal b6 + bitVal b7

/-- The byte-reassembly loop of `binary_to_text`: consume complete 8-bit
groups in order; a trailing group of fewer than 8 bits is discarded
(the `if len(byte) == 8` guard). -/
def bitsToBytes : List Bool → List Nat
  | b0 :: b1 :: b2 :: b3 :: b4 :: b5 :: b6 :: b7 :: rest =>
      bitsOfByte b0 b1 b2 b3 b4 b5 b6 b7 :: bitsToBytes rest
  | _ => []

theorem bitsToBytes_byteToBits (b : Nat) (hb : b < 256) (rest : List Bool) :
    bitsToBytes (byteToBits b ++ rest) = b :: bitsToBytes rest := by
  have h : ∀ x < 256, bitsOfByte (x / 128 % 2 == 1) (x / 64 % 2 == 1)
      (x / 32 % 2 == 1) (x / 16 % 2 == 1) (x / 8 % 2 == 1) (x / 4 % 2 == 1)
      (x / 2 % 2 == 1) (x % 2 == 1) = x := by decide
  simp only [byteToBits, List.cons_append, List.nil_append, bitsToBytes]
  rw [h b hb]
  rfl

theorem bitsToBytes_bytesToBits (bs : List Nat) (hb : ∀ x ∈ bs, x < 256) :
    bitsToBytes (bytesToBits bs) = bs := by
  induction bs with
  | nil => rfl
  | cons b rest ih =>
      have hb' : b < 256 := hb b (by simp)
      have hrest : ∀ x ∈ rest, x < 256 := fun x hx => hb x (by simp [hx])
      simp only [bytesToBits, List.map_cons, List.flatten_cons]
      rw [bitsToBytes_byteToBits b hb']
      have h2 := ih hrest
      simp only [bytesToBits] at h2
      rw [h2]

theorem byteToBits_length (b : Nat) : (byteToBits b).length = 8 := by
  simp [byteToBits]

theorem bytesToBits_length (bs : List Nat) :
    (bytesToBits bs).length = 8 * bs.length := by
  induction bs with
  | nil => rfl
  | cons b rest ih =>
      simp only [bytesToBits, List.map_cons, List.flatten_cons,
        List.length_append, byteToBits_length, List.length_cons] at *
      omega

theorem bitsToBytes_short (l : List Bool) (h : l.length < 8) :
    bitsToBytes l = [] := by
  unfold bitsToBytes
  split
  · rename_i b0 b1 b2 b3 b4 b5 b6 b7 rest
    simp only [List.length_cons] at h
    omega
  · rfl

theorem bitsToBytes_append_small (bits extra : List Bool)
    (h8 : bits.length % 8 = 0) (hsmall : extra.length < 8) :
    bitsToBytes (bits ++ extra) = bitsToBytes bits := by
  have main : ∀ n (l : List Bool), l.length = n → l.length % 8 = 0 →
      bitsToBytes (l ++ extra) = bitsToBytes l := by
    intro n
    induction n using Nat.strong_induction_on with
    | _ n ih =>
      intro l hlen hl8
      rcases l with _ | ⟨b0, _ | ⟨b1, _ | ⟨b2, _ | ⟨b3, _ | ⟨b4, _ | ⟨b5,
        _ | ⟨b6, _ | ⟨b7, rest⟩⟩⟩⟩⟩⟩⟩⟩
      · simpa using bitsToBytes_short extra hsmall
      · simp at hl8
      · simp at hl8
      · simp at hl8
      · simp at hl8
      · simp at hl8
      · simp at hl8
      · simp at hl8
      · simp only [List.cons_append, bitsToBytes, List.append_eq]
        have hrest : rest.length < n := by simp at hlen; omega
        have hrest8 : rest.length % 8 = 0 := by simp at hl8 ⊢; omega
        rw [ih rest.length hrest rest rfl hrest8]
  exact main bits.length bits rfl h8

end StegoX

/-! ### UTF-8 encoding and decoding (`text.encode('utf-8')`, `bytes.decode('utf-8')`) -/

namespace StegoX

/-- Whether a code point is a Unicode scalar value, i.e. encodable by
`str.encode('utf-8')` (surrogates are rejected by CPython's encoder). -/
def ValidScalar (c : Nat) : Prop :=
  c < 1114112 ∧ ¬(55296 ≤ c ∧ c < 57344)

instance (c : Nat) : Decidable (ValidScalar c) := by
  unfold ValidScalar; infer_instance

/-- The UTF-8 byte sequence of one code point. -/
def utf8EncodeChar (c : Nat) : List Nat :=
  if c < 128 then [c]
  else if c < 2048 then [192 + c / 64, 128 + c % 64]
  else if c < 65536 then [224 + c / 4096, 128 + c / 64 % 64, 128 + c % 64]
  else [240 + c / 262144, 128 + c / 4096 % 64, 128 + c / 64 % 64, 128 + c % 64]

/-- `text.encode('utf-8')` on a string given as its code points. -/
def utf8Encode (cps : List Nat) : List Nat :=
  (cps.map utf8EncodeChar).flatten

/-- Is a byte a UTF-8 continuation byte (`0b10xxxxxx`)? -/
def isCont (b : Nat) : Bool := 128 ≤ b && b < 192

/-- Strict UTF-8 decoding (`bytes.decode('utf-8')` without an error
handler): `none` on any malformed, overlong, surrogate or out-of-range
sequence, the decoded code points otherwise. -/
def utf8DecodeStrict : List Nat → Option (List Nat)
  | [] => some []
  | b :: rest =>
    if b < 128 then (utf8DecodeStrict rest).map (b :: ·)
    else if b < 192 then none
    else if 248 ≤ b then none
    else
      match rest with
      | [] => none
      | b1 :: rest1 =>
        if b < 224 then
          if isCont b1 then
            let c := (b - 192) * 64 + (b1 - 128)
            if 128 ≤ c then (utf8DecodeStrict rest1).map (c :: ·) else none
          else none
        else
          match rest1 with
          | [] => none
          | b2 :: rest2 =>
            if b < 240 then
              if isCont b1 && isCont b2 then
                let c := (b - 224) * 4096 + (b1 - 128) * 64 + (b2 - 128)
                if 2048 ≤ c ∧ ¬(55296 ≤ c ∧ c < 57344) then
                  (utf8DecodeStrict rest2).map (c :: ·)
                else none
              else none
            else
              match rest2 with
              | [] => none
              | b3 :: rest3 =>
                if isCont b1 && isCont b2 && isCont b3 then
                  let c := (b - 240) * 262144 + (b1 - 128) * 4096 +
                    (b2 - 128) * 64 + (b3 - 128)
                  if 65536 ≤ c ∧ c < 1114112 then
                    (utf8DecodeStrict rest3).map (c :: ·)
                  else none
                else none

/-- Lossy UTF-8 decoding (`bytes.decode('utf-8', errors='ignore')`):
total; malformed bytes are skipped instead of failing.  On sequences that
are valid UTF-8 it agrees with `utf8DecodeStrict`, which is the only way
the repository reaches it; its behaviour on invalid bytes models the
ignore handler (drop the offending byte and resynchronise). -/
def utf8DecodeLossy : List Nat → List Nat
  | [] => []
  | b :: rest =>
    if b < 128 then b :: utf8DecodeLossy rest
    else if b < 192 then utf8DecodeLossy rest
    else if 248 ≤ b then utf8DecodeLossy rest
    else
      match rest with
      | [] => []
      | b1 :: rest1 =>
        if b < 224 then
          if isCont b1 then
            let c := (b - 192) * 64 + (b1 - 128)
            if 128 ≤ c then c :: utf8DecodeLossy rest1 else utf8DecodeLossy rest1
          else utf8DecodeLossy (b1 :: rest1)
        else
          match rest1 with
          | [] => []
          | b2 :: rest2 =>
            if b < 240 then
              if isCont b1 && isCont b2 then
                let c := (b - 224) * 4096 + (b1 - 128) * 64 + (b2 - 128)
                if 2048 ≤ c ∧ ¬(55296 ≤ c ∧ c < 57344) then
                  c :: utf8DecodeLossy rest2
                else utf8DecodeLossy rest2
              else utf8DecodeLossy (b1 :: b2 :: rest2)
            else
              match rest2 with
              | [] => []
              | b3 :: rest3 =>
                if isCont b1 && isCont b2 && isCont b3 then
                  let c := (b - 240) * 262144 + (b1 - 128) * 4096 +
                    (b2 - 128) * 64 + (b3 - 128)
                  if 65536 ≤ c ∧ c < 1114112 then
                    c :: utf8DecodeLossy rest3
                  else utf8DecodeLossy rest3
                else utf8DecodeLossy (b1 :: b2 :: b3 :: rest3)

theorem utf8DecodeStrict_encodeChar (c : Nat) (hc : ValidScalar c)
    (rest : List Nat) :
    utf8DecodeStrict (utf8EncodeChar c ++ rest) =
      (utf8DecodeStrict rest).map (c :: ·) := by
  obtain ⟨hlt, hsur⟩ := hc
  by_cases h1 : c < 128
  · simp only [utf8EncodeChar, if_pos h1, List.cons_append, List.nil_append]
    rw [utf8DecodeStrict.eq_def]
    simp only [if_pos h1]
  · by_cases h2 : c < 2048
    · simp only [utf8EncodeChar, if_neg h1, if_pos h2, List.cons_append,
        List.nil_append]
      rw [utf8DecodeStrict.eq_def]
      have hb : ¬(192 + c / 64 < 128) := by omega
      have hb2 : ¬(192 + c / 64 < 192) := by omega
      have hb2b : ¬(248 ≤ 192 + c / 64) := by omega
      have hb3 : 192 + c / 64 < 224 := by omega
      have hcont : isCont (128 + c % 64) = true := by
        simp [isCont]; omega
      simp only [if_neg hb, if_neg hb2, if_neg hb2b, if_pos hb3, hcont, if_pos]
      have hc' : (192 + c / 64 - 192) * 64 + (128 + c % 64 - 128) = c := by
        omega
      rw [hc']
      simp only [if_pos (by omega : 128 ≤ c)]
    · by_cases h3 : c < 65536
      · simp only [utf8EncodeChar, if_neg h1, if_neg h2, if_pos h3,
          List.cons_append, List.nil_append]
        rw [utf8DecodeStrict.eq_def]
        have hb : ¬(224 + c / 4096 < 128) := by omega
        have hb2 : ¬(224 + c / 4096 < 192) := by omega
        have hb2b : ¬(248 ≤ 224 + c / 4096) := by omega
        have hb3 : ¬(224 + c / 4096 < 224) := by omega
        have hb4 : 224 + c / 4096 < 240 := by omega
        have hcont : (isCont (128 + c / 64 % 64) && isCont (128 + c % 64)) = true := by
          simp [isCont]; omega
        simp only [if_neg hb, if_neg hb2, if_neg hb2b, if_neg hb3, if_pos hb4,
          hcont, if_pos]
        have hc' : (224 + c / 4096 - 224) * 4096 + (128 + c / 64 % 64 - 128) * 64 +
            (128 + c % 64 - 128) = c := by omega
        rw [hc']
        simp only [if_pos (by omega : 2048 ≤ c ∧ ¬(55296 ≤ c ∧ c < 57344))]
      · simp only [utf8EncodeChar, if_neg h1, if_neg h2, if_neg h3,
          List.cons_append, List.nil_append]
        rw [utf8DecodeStrict.eq_def]
        have hb : ¬(240 + c / 262144 < 128) := by omega
        have hb2 : ¬(240 + c / 262144 < 192) := by omega
        have hb2b : ¬(248 ≤ 240 + c / 262144) := by omega
        have hb3 : ¬(240 + c / 262144 < 224) := by omega
        have hb4 : ¬(240 + c / 262144 < 240) := by omega
        have hcont : (isCont (128 + c / 4096 % 64) && isCont (128 + c / 64 % 64) &&
            isCont (128 + c % 64)) = true := by
          simp [isCont]; omega
        simp only [if_neg hb, if_neg hb2, if_neg hb2b, if_neg hb3, if_neg hb4,
          hcont, if_pos]
        have hc' : (240 + c / 262144 - 240) * 262144 + (128 + c / 4096 % 64 - 128) * 4096 +
            (128 + c / 64 % 64 - 128) * 64 + (128 + c % 64 - 128) = c := by omega
        rw [hc']
        simp only [if_pos (by omega : 65536 ≤ c ∧ c < 1114112)]

theorem utf8DecodeStrict_utf8Encode (cps : List Nat)
    (h : ∀ c ∈ cps, ValidScalar c) :
    utf8DecodeStrict (utf8Encode cps) = some cps := by
  induction cps with
  | nil => rfl
  | cons c rest ih =>
      have hc : ValidScalar c := h c (by simp)
      have hrest : ∀ x ∈ rest, ValidScalar x := fun x hx => h x (by simp [hx])
      simp only [utf8Encode, List.map_cons, List.flatten_cons]
      rw [utf8DecodeStrict_encodeChar c hc]
      have h2 := ih hrest
      simp only [utf8Encode] at h2
      rw [h2]
      rfl

theorem utf8DecodeLossy_encodeChar (c : Nat) (hc : ValidScalar c)
    (rest : List Nat) :
    utf8DecodeLossy (utf8EncodeChar c ++ rest) = c :: utf8DecodeLossy rest := by
  obtain ⟨hlt, hsur⟩ := hc
  by_cases h1 : c < 128
  · simp only [utf8EncodeChar, if_pos h1, List.cons_append, List.nil_append]
    rw [utf8DecodeLossy.eq_def]
    simp only [if_pos h1]
  · by_cases h2 : c < 2048
    · simp only [utf8EncodeChar, if_neg h1, if_pos h2, List.cons_append,
        List.nil_append]
      rw [utf8DecodeLossy.eq_def]
      have hb : ¬(192 + c / 64 < 128) := by omega
      have hb2 : ¬(192 + c / 64 < 192) := by omega
      have hb2b : ¬(248 ≤ 192 + c / 64) := by omega
      have hb3 : 192 + c / 64 < 224 := by omega
      have hcont : isCont (128 + c % 64) = true := by
        simp [isCont]; omega
      simp only [if_neg hb, if_neg hb2, if_neg hb2b, if_pos hb3, hcont, if_pos]
      have hc' : (192 + c / 64 - 192) * 64 + (128 + c % 64 - 128) = c := by
        omega
      rw [hc']
      simp only [if_pos (by omega : 128 ≤ c)]
    · by_cases h3 : c < 65536
      · simp only [utf8EncodeChar, if_neg h1, if_neg h2, if_pos h3,
          List.cons_append, List.nil_append]
        rw [utf8DecodeLossy.eq_def]
        have hb : ¬(224 + c / 4096 < 128) := by omega
        have hb2 : ¬(224 + c / 4096 < 192) := by omega
        have hb2b : ¬(248 ≤ 224 + c / 4096) := by omega
        have hb3 : ¬(224 + c / 4096 < 224) := by omega
        have hb4 : 224 + c / 4096 < 240 := by omega
        have hcont : (isCont (128 + c / 64 % 64) && isCont (128 + c % 64)) = true := by
          simp [isCont]; omega
        simp only [if_neg hb, if_neg hb2, if_neg hb2b, if_neg hb3, if_pos hb4,
          hcont, if_pos]
        have hc' : (224 + c / 4096 - 224) * 4096 + (128 + c / 64 % 64 - 128) * 64 +
            (128 + c % 64 - 128) = c := by omega
        rw [hc']
        simp only [if_pos (by omega : 2048 ≤ c ∧ ¬(55296 ≤ c ∧ c < 57344))]
      · simp only [utf8EncodeChar, if_neg h1, if_neg h2, if_neg h3,
          List.cons_append, List.nil_append]
        rw [utf8DecodeLossy.eq_def]
        have hb : ¬(240 + c / 262144 < 128) := by omega
        have hb2 : ¬(240 + c / 262144 < 192) := by omega
        have hb2b : ¬(248 ≤ 240 + c / 262144) := by omega
        have hb3 : ¬(240 + c / 262144 < 224) := by omega
        have hb4 : ¬(240 + c / 262144 < 240) := by omega
        have hcont : (isCont (128 + c / 4096 % 64) && isCont (128 + c / 64 % 64) &&
            isCont (128 + c % 64)) = true := by
          simp [isCont]; omega
        simp only [if_neg hb, if_neg hb2, if_neg hb2b, if_neg hb3, if_neg hb4,
          hcont, if_pos]
        have hc' : (240 + c / 262144 - 240) * 262144 + (128 + c / 4096 % 64 - 128) * 4096 +
            (128 + c / 64 % 64 - 128) * 64 + (128 + c % 64 - 128) = c := by omega
        rw [hc']
        simp only [if_pos (by omega : 65536 ≤ c ∧ c < 1114112)]

theorem utf8DecodeLossy_utf8Encode (cps : List Nat)
    (h : ∀ c ∈ cps, ValidScalar c) :
    utf8DecodeLossy (utf8Encode cps) = cps := by
  induction cps with
  | nil => rfl
  | cons c rest ih =>
      have hc : ValidScalar c := h c (by simp)
      have hrest : ∀ x ∈ rest, ValidScalar x := fun x hx => h x (by simp [hx])
      simp only [utf8Encode, List.map_cons, List.flatten_cons]
      rw [utf8DecodeLossy_encodeChar c hc]
      have h2 := ih hrest
      simp only [utf8Encode] at h2
      rw [h2]

theorem utf8EncodeChar_lt_256 (c : Nat) (hc : c < 1114112) :
    ∀ b ∈ utf8EncodeChar c, b < 256 := by
  intro b hb
  unfold utf8EncodeChar at hb
  split at hb
  · simp at hb; omega
  · split at hb
    · simp at hb
      rcases hb with h | h <;> omega
    · split at hb
      · simp at hb
        rcases hb with h | h | h <;> omega
      · simp at hb
        rcases hb with h | h | h | h <;> omega

theorem utf8Encode_lt_256 (cps : List Nat) (h : ∀ c ∈ cps, c < 1114112) :
    ∀ b ∈ utf8Encode cps, b < 256 := by
  intro b hb
  simp only [utf8Encode, List.mem_flatten, List.mem_map] at hb
  obtain ⟨l, ⟨c, hc, rfl⟩, hbl⟩ := hb
  exact utf8EncodeChar_lt_256 c (h c hc) b hbl

end StegoX

/-! ### Binary codec, end-marker framing and LSB embedding
(`stego_engine.py`, `audio_stego.py`) -/

namespace StegoX

/-- The framing constant `END_MARKER = '1010101010101010'`. -/
def END_MARKER : List Bool :=
  [true, false, true, false, true, false, true, false,
   true, false, true, false, true, false, true, false]

/-- `text_to_binary`: UTF-8 encode, then render each byte as 8 bits. -/
def text_to_binary (cps : List Nat) : List Bool :=
  bytesToBits (utf8Encode cps)

/-- `binary_to_text`: reassemble complete 8-bit groups into bytes, then
decode as UTF-8, falling back to `errors='ignore'` instead of raising. -/
def binary_to_text (bits : List Bool) : List Nat :=
  utf8DecodeLossy (bitsToBytes bits)

/-- `binary_string.find(END_MARKER)` followed by
`binary_string[:end_marker_pos]`: the prefix strictly before the first
occurrence of the marker, `none` when the marker does not occur. -/
def unframePrefix : List Bool → Option (List Bool)
  | [] => none
  | b :: rest =>
    if END_MARKER.isPrefixOf (b :: rest) then some []
    else (unframePrefix rest).map (b :: ·)

theorem unframePrefix_spec (bits : List Bool) :
    ∀ p, unframePrefix bits = some p →
      (∃ r, bits = p ++ END_MARKER ++ r) ∧
        ∀ l r, bits = l ++ END_MARKER ++ r → p.length ≤ l.length := by
  induction bits with
  | nil => intro p h; simp [unframePrefix] at h
  | cons b rest ih =>
      intro p h
      rw [unframePrefix] at h
      by_cases hpre : END_MARKER.isPrefixOf (b :: rest)
      · rw [if_pos hpre] at h
        have hp : p = [] := (Option.some_inj.mp h).symm
        subst hp
        refine ⟨?_, ?_⟩
        · obtain ⟨t, ht⟩ := List.isPrefixOf_iff_prefix.mp hpre
          exact ⟨t, by simp [← ht]⟩
        · intro l r _
          simp
      · rw [if_neg hpre] at h
        cases hq : unframePrefix rest with
        | none => rw [hq] at h; simp at h
        | some q =>
            rw [hq] at h
            simp at h
            obtain rfl : p = b :: q := h.symm
            obtain ⟨⟨r, hr⟩, hmin⟩ := ih q hq
            refine ⟨⟨r, by simp [hr]⟩, ?_⟩
            intro l r2 heq
            cases l with
            | nil =>
                exfalso
                apply hpre
                simp only [List.nil_append] at heq
                exact List.isPrefixOf_iff_prefix.mpr
                  ⟨r2, by simp [heq]⟩
            | cons x l2 =>
                simp only [List.cons_append, List.cons.injEq] at heq
                have := hmin l2 r2 heq.2
                simp only [List.length_cons]
                omega

theorem unframePrefix_eq_none_iff (bits : List Bool) :
    unframePrefix bits = none ↔ ∀ l r, bits ≠ l ++ END_MARKER ++ r := by
  induction bits with
  | nil =>
      constructor
      · intro _ l r h
        have := congrArg List.length h
        simp [END_MARKER] at this
        omega
      · intro _
        rfl
  | cons b rest ih =>
      rw [unframePrefix]
      by_cases hpre : END_MARKER.isPrefixOf (b :: rest)
      · rw [if_pos hpre]
        constructor
        · intro h; exact absurd h (by simp)
        · intro h
          exfalso
          obtain ⟨t, ht⟩ := List.isPrefixOf_iff_prefix.mp hpre
          exact h [] t (by simp [← ht])
      · rw [if_neg hpre]
        constructor
        · intro h l r heq
          have hn : unframePrefix rest = none := by
            cases hq : unframePrefix rest with
            | none => rfl
            | some q => rw [hq] at h; simp at h
          cases l with
          | nil =>
              apply hpre
              simp only [List.nil_append] at heq
              exact List.isPrefixOf_iff_prefix.mpr ⟨r, by simp [heq]⟩
          | cons x l2 =>
              simp only [List.cons_append, List.cons.injEq] at heq
              exact (ih.mp hn) l2 r heq.2
        · intro h
          have hn : ∀ l r, rest ≠ l ++ END_MARKER ++ r := by
            intro l r heq
            exact h (b :: l) r (by simp [heq])
          rw [ih.mpr hn]
          rfl

theorem prefix_of_append_left {p a y : List Bool} (h : p <+: a ++ y)
    (hl : p.length ≤ a.length) : p <+: a := by
  have h2 := List.prefix_iff_eq_take.mp h
  rw [List.take_append_of_le_length hl] at h2
  rw [h2]
  exact List.take_prefix _ _

theorem unframePrefix_append (x y : List Bool)
    (hno : ∀ i, i < x.length → ¬ END_MARKER.isPrefixOf ((x ++ END_MARKER).drop i)) :
    unframePrefix (x ++ END_MARKER ++ y) = some x := by
  induction x with
  | nil =>
      simp only [List.nil_append]
      simp only [END_MARKER, List.cons_append]
      rw [unframePrefix]
      rw [if_pos]
      exact List.isPrefixOf_iff_prefix.mpr ⟨y, by simp [END_MARKER]⟩
  | cons b x2 ih =>
      have h0 := hno 0 (by simp)
      simp only [List.drop_zero] at h0
      simp only [List.cons_append]
      rw [unframePrefix]
      rw [if_neg, ih]
      · rfl
      · intro i hi
        have := hno (i + 1) (by simp; omega)
        simpa [List.cons_append] using this
      · intro hpre
        apply h0
        have hp := List.isPrefixOf_iff_prefix.mp hpre
        have hlen : END_MARKER.length ≤ ((b :: x2) ++ END_MARKER).length := by
          simp only [List.length_append, List.length_cons]
          omega
        have : END_MARKER <+: (b :: x2) ++ END_MARKER := by
          apply prefix_of_append_left (a := (b :: x2) ++ END_MARKER) (y := y)
          · simpa [List.append_assoc] using hp
          · simpa using hlen
        exact List.isPrefixOf_iff_prefix.mpr this

end StegoX

/-! ### LSB embedding and the hide/extract cores -/

namespace StegoX

/-- `x | v` for even `x` and a bit `v` is plain addition. -/
theorem lor_bit_of_even (x v : Nat) (hx : x % 2 = 0) (hv : v < 2) :
    x ||| v = x + v := by
  apply Nat.eq_of_testBit_eq
  intro i
  cases i with
  | zero =>
      rw [Nat.testBit_or, Nat.testBit_zero, Nat.testBit_zero, Nat.testBit_zero]
      have hv2 : v = 0 ∨ v = 1 := by omega
      rcases hv2 with rfl | rfl
      · simp
      · have h1 : (x + 1) % 2 = 1 := by omega
        simp [h1]
  | succ i =>
      rw [Nat.testBit_or, Nat.testBit_succ, Nat.testBit_succ, Nat.testBit_succ]
      have hv2 : v / 2 = 0 := by omega
      have hx2 : (x + v) / 2 = x / 2 := by omega
      rw [hv2, hx2, Nat.zero_testBit, Bool.or_false]

/-- Conjunction with the all-ones-but-LSB mask `2^n - 2` clears exactly the
least significant bit of an `n`-bit value. -/
theorem and_two_pow_sub_two (n s : Nat) (hn : 1 ≤ n) (hs : s < 2 ^ n) :
    s &&& (2 ^ n - 2) = 2 * (s / 2) := by
  have hp : 2 ^ n = 2 * 2 ^ (n - 1) := by
    conv_lhs => rw [show n = (n - 1) + 1 by omega]
    rw [pow_succ]
    ring
  apply Nat.eq_of_testBit_eq
  intro i
  cases i with
  | zero =>
      rw [Nat.testBit_and, Nat.testBit_zero, Nat.testBit_zero, Nat.testBit_zero]
      have h1 : (2 ^ n - 2) % 2 = 0 := by omega
      have h2 : (2 * (s / 2)) % 2 = 0 := by omega
      rw [h1, h2]
      simp
  | succ i =>
      rw [Nat.testBit_and, Nat.testBit_succ, Nat.testBit_succ, Nat.testBit_succ]
      have h1 : (2 ^ n - 2) / 2 = 2 ^ (n - 1) - 1 := by omega
      have h2 : 2 * (s / 2) / 2 = s / 2 := by omega
      rw [h1, h2, Nat.testBit_two_pow_sub_one]
      by_cases hi : i < n - 1
      · simp [hi]
      · have hsf : (s / 2).testBit i = false := by
          apply Nat.testBit_lt_two_pow
          have hle : 2 ^ (n - 1) ≤ 2 ^ i := Nat.pow_le_pow_right (by omega) (by omega)
          omega
        simp [hsf]

theorem and_mask_lsb (mask s : Nat) (hm : mask % 2 = 0) :
    (s &&& mask) % 2 = 0 := by
  rw [← Nat.and_one_is_mod, Nat.and_assoc, Nat.and_one_is_mod mask, hm,
    Nat.and_zero]

theorem bitVal_lt_two (b : Bool) : bitVal b < 2 := by
  cases b <;> simp [bitVal]

/-- The LSB of an embedded element is the embedded bit (any even mask). -/
theorem embed_elem_mod_two (mask s : Nat) (hm : mask % 2 = 0) (b : Bool) :
    ((s &&& mask) ||| bitVal b) % 2 = bitVal b := by
  rw [lor_bit_of_even _ _ (and_mask_lsb mask s hm) (bitVal_lt_two b)]
  have := and_mask_lsb mask s hm
  have := bitVal_lt_two b
  omega

/-- The higher bits of an embedded element are those of the original
sample, provided the sample is in range of its `n`-bit mask. -/
theorem embed_elem_div_two (n s : Nat) (hn : 1 ≤ n) (hs : s < 2 ^ n) (b : Bool) :
    ((s &&& (2 ^ n - 2)) ||| bitVal b) / 2 = s / 2 := by
  have hm : (2 ^ n - 2) % 2 = 0 := by
    have hp : 2 ^ n = 2 * 2 ^ (n - 1) := by
      conv_lhs => rw [show n = (n - 1) + 1 by omega]
      rw [pow_succ]
      ring
    omega
  rw [lor_bit_of_even _ _ (and_mask_lsb _ s hm) (bitVal_lt_two b),
    and_two_pow_sub_two n s hn hs]
  have := bitVal_lt_two b
  omega

/-- The embedding loop shared by `fast_embed_pixels` (mask `254`, uint8
pixels) and `hide_message_in_audio` (mask `0xFFFE`, int16 samples):
`result[i] = (result[i] & mask) | int(bits[i])` for
`i < min(len(bits), len(samples))`, on a fresh copy of the carrier. -/
def embedLSB (mask : Nat) : List Bool → List Nat → List Nat
  | _, [] => []
  | [], ss => ss
  | b :: bs, s :: ss => ((s &&& mask) ||| bitVal b) :: embedLSB mask bs ss

/-- `fast_embed_pixels(binary_data, flat_pixels)` from `stego_engine.py`:
LSB substitution with the 8-bit mask `254`. -/
def fast_embed_pixels (binary_data : List Bool) (flat_pixels : List Nat) :
    List Nat :=
  embedLSB 254 binary_data flat_pixels

/-- The embedding loop of `hide_message_in_audio` from `audio_stego.py`:
LSB substitution with the 16-bit mask `0xFFFE = 65534`. -/
def audio_embed (binary_message : List Bool) (audio_data : List Nat) :
    List Nat :=
  embedLSB 65534 binary_message audio_data

/-- `sample & 1` as a boolean: the extracted bit of one carrier element. -/
def lsb (s : Nat) : Bool := s &&& 1 == 1

theorem lsb_eq_iff (s : Nat) : lsb s = (s % 2 == 1) := by
  rw [lsb, Nat.and_one_is_mod]

theorem embedLSB_length (mask : Nat) (bits : List Bool) (samples : List Nat) :
    (embedLSB mask bits samples).length = samples.length := by
  induction bits generalizing samples with
  | nil => cases samples <;> rfl
  | cons b bs ih =>
      cases samples with
      | nil => rfl
      | cons s ss => simp [embedLSB, ih]

theorem embedLSB_getD_lt (mask : Nat) (bits : List Bool) (samples : List Nat)
    (i : Nat) (hib : i < bits.length) (his : i < samples.length) :
    (embedLSB mask bits samples).getD i 0 =
      ((samples.getD i 0 &&& mask) ||| bitVal (bits.getD i false)) := by
  induction i generalizing bits samples with
  | zero =>
      cases bits with
      | nil => simp at hib
      | cons b bs =>
          cases samples with
          | nil => simp at his
          | cons s ss => simp [embedLSB]
  | succ i ih =>
      cases bits with
      | nil => simp at hib
      | cons b bs =>
          cases samples with
          | nil => simp at his
          | cons s ss =>
              simp only [embedLSB, List.getD_cons_succ]
              exact ih bs ss (by simpa using hib) (by simpa using his)

theorem embedLSB_getD_ge (mask : Nat) (bits : List Bool) (samples : List Nat)
    (j : Nat) (hj : bits.length ≤ j) :
    (embedLSB mask bits samples).getD j 0 = samples.getD j 0 := by
  induction j generalizing bits samples with
  | zero =>
      have hb : bits = [] := by
        cases bits with
        | nil => rfl
        | cons b bs => simp at hj
      subst hb
      cases samples <;> rfl
  | succ j ih =>
      cases bits with
      | nil => cases samples <;> rfl
      | cons b bs =>
          cases samples with
          | nil => rfl
          | cons s ss =>
              simp only [embedLSB, List.getD_cons_succ]
              exact ih bs ss (by simpa using hj)

/-- Reading back the LSBs of an embedded carrier yields the embedded bits
followed by the LSBs of the untouched tail. -/
theorem map_lsb_embedLSB (mask : Nat) (hm : mask % 2 = 0) (bits : List Bool)
    (samples : List Nat) (h : bits.length ≤ samples.length) :
    (embedLSB mask bits samples).map lsb =
      bits ++ (samples.drop bits.length).map lsb := by
  induction bits generalizing samples with
  | nil => cases samples <;> simp [embedLSB]
  | cons b bs ih =>
      cases samples with
      | nil => simp at h
      | cons s ss =>
          simp only [embedLSB, List.map_cons, List.length_cons,
            List.drop_succ_cons, List.cons_append]
          have hlsb : lsb ((s &&& mask) ||| bitVal b) = b := by
            rw [lsb_eq_iff, embed_elem_mod_two mask s hm b]
            cases b <;> simp [bitVal]
          rw [hlsb, ih ss (by simpa using h)]

end StegoX

/-! ### Hide/extract cores and capacity reports -/

namespace StegoX

/-- The `ValueError("Message too large. Max capacity: ... bits, Message:
... bits")` raised by both hide operations, carrying the two reported
numbers. -/
structure CapacityError where
  capacity : Nat
  messageLength : Nat
  deriving DecidableEq

/-- The body of `hide_message_in_image` between loading and saving: frame
the encrypted message with `END_MARKER`, compare against
`height * width * channels` (the length of the flattened pixel array),
raise on overflow, else embed into the LSBs. -/
def hideCoreImage (flat_pixels : List Nat) (encrypted_message : List Nat) :
    Except CapacityError (List Nat) :=
  let binary_message := text_to_binary encrypted_message ++ END_MARKER
  let message_length := binary_message.length
  let max_capacity := flat_pixels.length
  if message_length > max_capacity then
    Except.error ⟨max_capacity, message_length⟩
  else
    Except.ok (fast_embed_pixels binary_message flat_pixels)

/-- The body of `hide_message_in_audio` between reading and writing:
identical to the image variant except for the 16-bit mask. -/
def hideCoreAudio (audio_data : List Nat) (encrypted_message : List Nat) :
    Except CapacityError (List Nat) :=
  let binary_message := text_to_binary encrypted_message ++ END_MARKER
  let message_length := binary_message.length
  let max_capacity := audio_data.length
  if message_length > max_capacity then
    Except.error ⟨max_capacity, message_length⟩
  else
    Except.ok (audio_embed binary_message audio_data)

/-- `extract_message_from_image` / `extract_message_from_audio` (their
bodies are textually identical): read every element's LSB, cut at the
first `END_MARKER` occurrence (`ValueError` — here `none` — when absent),
decode the prefix. -/
def extract_message (carrier : List Nat) : Option (List Nat) :=
  (unframePrefix (carrier.map lsb)).map binary_to_text

/-- The numeric fields of the dict returned by `get_image_capacity`. -/
structure ImageCapacity where
  total_pixels : Nat
  max_bits : Nat
  max_characters : Nat
  recommended_message_length : Int
  deriving DecidableEq

/-- `get_image_capacity`: `total_pixels = height * width * channels`,
`max_characters = total_pixels // 8`,
`recommended_message_length = max_characters - 50`. -/
def get_image_capacity (height width channels : Nat) : ImageCapacity :=
  let total_pixels := height * width * channels
  let max_chars := total_pixels / 8
  { total_pixels := total_pixels
    max_bits := total_pixels
    max_characters := max_chars
    recommended_message_length := (max_chars : Int) - 50 }

/-- The numeric fields of the dict returned by `get_audio_capacity`. -/
structure AudioCapacity where
  total_samples : Nat
  max_bits : Nat
  max_characters : Nat
  recommended_message_length : Int
  deriving DecidableEq

/-- `get_audio_capacity`: `total_samples = len(audio_data)`,
`max_characters = total_samples // 8`,
`recommended_message_length = max_characters - 50`. -/
def get_audio_capacity (total_samples : Nat) : AudioCapacity :=
  let max_chars := total_samples / 8
  { total_samples := total_samples
    max_bits := total_samples
    max_characters := max_chars
    recommended_message_length := (max_chars : Int) - 50 }

theorem text_to_binary_length (cps : List Nat) :
    (text_to_binary cps).length = 8 * (utf8Encode cps).length := by
  rw [text_to_binary, bytesToBits_length]

theorem END_MARKER_length : END_MARKER.length = 16 := by rfl

end StegoX

/-! ### Base64 transport coding (`base64.b64encode`/`b64decode` as used by
`encryptor.py`) -/

namespace StegoX

/-- The standard base64 alphabet as ASCII codes
(`A-Z`, `a-z`, `0-9`, `+`, `/`). -/
def b64Table : List Nat :=
  [65, 66, 67, 68, 69, 70, 71, 72, 73, 74, 75, 76, 77, 78, 79, 80, 81, 82,
   83, 84, 85, 86, 87, 88, 89, 90,
   97, 98, 99, 100, 101, 102, 103, 104, 105, 106, 107, 108, 109, 110, 111,
   112, 113, 114, 115, 116, 117, 118, 119, 120, 121, 122,
   48, 49, 50, 51, 52, 53, 54, 55, 56, 57, 43, 47]

/-- The alphabet character for a 6-bit group. -/
def b64Char (i : Nat) : Nat := b64Table.getD i 0

/-- Position of an ASCII code in the alphabet, `none` if absent. -/
def b64Index (c : Nat) : Option Nat := b64Table.findIdx? (· == c)

/-- `base64.b64encode`: 3-byte groups to 4 alphabet characters; a final
1-byte group yields 2 characters and `==`, a 2-byte group 3 characters
and `=` (61 is ASCII `=`). -/
def base64Encode : List Nat → List Nat
  | [] => []
  | b1 :: rest1 =>
    match rest1 with
    | [] => [b64Char (b1 / 4), b64Char (b1 % 4 * 16), 61, 61]
    | b2 :: rest2 =>
      match rest2 with
      | [] => [b64Char (b1 / 4), b64Char (b1 % 4 * 16 + b2 / 16),
               b64Char (b2 % 16 * 4), 61]
      | b3 :: rest3 =>
          b64Char (b1 / 4) :: b64Char (b1 % 4 * 16 + b2 / 16) ::
          b64Char (b2 % 16 * 4 + b3 / 64) :: b64Char (b3 % 64) ::
          base64Encode rest3

/-- `base64.b64decode` on well-formed base64 text: 4-character groups to
3 bytes, with `=`-padding handling in the final group; `none` (the
`binascii.Error`) when the length is not a multiple of 4 or a character
is not in the alphabet. -/
def base64Decode : List Nat → Option (List Nat)
  | [] => some []
  | c1 :: c2 :: c3 :: c4 :: rest =>
      if c3 = 61 ∧ c4 = 61 ∧ rest = [] then
        (b64Index c1).bind fun i1 =>
          (b64Index c2).map fun i2 => [i1 * 4 + i2 / 16]
      else if c4 = 61 ∧ rest = [] then
        (b64Index c1).bind fun i1 =>
          (b64Index c2).bind fun i2 =>
            (b64Index c3).map fun i3 =>
              [i1 * 4 + i2 / 16, i2 % 16 * 16 + i3 / 4]
      else
        (b64Index c1).bind fun i1 =>
          (b64Index c2).bind fun i2 =>
            (b64Index c3).bind fun i3 =>
              (b64Index c4).bind fun i4 =>
                (base64Decode rest).map fun tail =>
                  (i1 * 4 + i2 / 16) :: (i2 % 16 * 16 + i3 / 4) ::
                  (i3 % 4 * 64 + i4) :: tail
  | _ => none

theorem b64Index_b64Char (i : Nat) (hi : i < 64) :
    b64Index (b64Char i) = some i := by
  revert i
  decide

theorem b64Char_ne_61 (i : Nat) (hi : i < 64) : b64Char i ≠ 61 := by
  revert i
  decide

theorem b64Char_lt_128 (i : Nat) : b64Char i < 128 := by
  by_cases hi : i < 64
  · revert hi
    revert i
    decide
  · rw [b64Char, List.getD_eq_default]
    · omega
    · simp [b64Table]
      omega

theorem base64Encode_lt_128 (bs : List Nat) :
    ∀ c ∈ base64Encode bs, c < 128 := by
  induction bs using base64Encode.induct with
  | case1 => intro c hc; simp [base64Encode] at hc
  | case2 b1 =>
      intro c hc
      simp [base64Encode] at hc
      rcases hc with rfl | rfl | rfl | rfl <;>
        first
        | exact b64Char_lt_128 _
        | omega
  | case3 b1 b2 =>
      intro c hc
      simp [base64Encode] at hc
      rcases hc with rfl | rfl | rfl | rfl <;>
        first
        | exact b64Char_lt_128 _
        | omega
  | case4 b1 b2 b3 rest3 ih =>
      intro c hc
      simp only [base64Encode, List.mem_cons] at hc
      rcases hc with rfl | rfl | rfl | rfl | hc
      · exact b64Char_lt_128 _
      · exact b64Char_lt_128 _
      · exact b64Char_lt_128 _
      · exact b64Char_lt_128 _
      · exact ih c hc

theorem base64Encode_cons_ne_nil (x : Nat) (xs : List Nat) :
    base64Encode (x :: xs) ≠ [] := by
  cases xs with
  | nil => simp [base64Encode]
  | cons y ys =>
      cases ys with
      | nil => simp [base64Encode]
      | cons z zs => simp [base64Encode]

theorem base64Decode_base64Encode (bs : List Nat) (hb : ∀ x ∈ bs, x < 256) :
    base64Decode (base64Encode bs) = some bs := by
  induction bs using base64Encode.induct with
  | case1 => rfl
  | case2 b1 =>
      have h1 : b1 < 256 := hb b1 (by simp)
      simp only [base64Encode]
      rw [base64Decode]
      rw [if_pos ⟨rfl, rfl, rfl⟩]
      rw [b64Index_b64Char _ (by omega), b64Index_b64Char _ (by omega)]
      simp only [Option.some_bind, Option.map_some' ]
      congr 2
      omega
  | case3 b1 b2 =>
      have h1 : b1 < 256 := hb b1 (by simp)
      have h2 : b2 < 256 := hb b2 (by simp)
      simp only [base64Encode]
      rw [base64Decode]
      rw [if_neg (by
        rintro ⟨hc3, -, -⟩
        exact b64Char_ne_61 _ (by omega) hc3)]
      rw [if_pos ⟨rfl, rfl⟩]
      rw [b64Index_b64Char _ (by omega), b64Index_b64Char _ (by omega),
        b64Index_b64Char _ (by omega)]
      simp only [Option.some_bind, Option.map_some' ]
      congr 1
      have e1 : b1 / 4 * 4 + (b1 % 4 * 16 + b2 / 16) / 16 = b1 := by omega
      have e2 : (b1 % 4 * 16 + b2 / 16) % 16 * 16 + b2 % 16 * 4 / 4 = b2 := by
        omega
      rw [e1, e2]
  | case4 b1 b2 b3 rest3 ih =>
      have h1 : b1 < 256 := hb b1 (by simp)
      have h2 : b2 < 256 := hb b2 (by simp)
      have h3 : b3 < 256 := hb b3 (by simp)
      have hrest : ∀ x ∈ rest3, x < 256 := fun x hx => hb x (by simp [hx])
      simp only [base64Encode]
      rw [base64Decode]
      by_cases hre : base64Encode rest3 = []
      · -- rest3 must itself be [], since encode of a cons is a cons
        have hr3 : rest3 = [] := by
          cases rest3 with
          | nil => rfl
          | cons x xs =>
              exact absurd hre (base64Encode_cons_ne_nil x xs)
        subst hr3
        rw [if_neg (by
          rintro ⟨hc3, -, -⟩
          exact b64Char_ne_61 _ (by omega) hc3)]
        rw [if_neg (by
          rintro ⟨hc4, -⟩
          exact b64Char_ne_61 _ (by omega) hc4)]
        rw [b64Index_b64Char _ (by omega), b64Index_b64Char _ (by omega),
          b64Index_b64Char _ (by omega), b64Index_b64Char _ (by omega)]
        rw [show base64Encode ([] : List Nat) = [] from rfl]
        rw [show base64Decode ([] : List Nat) = some [] from rfl]
        simp only [Option.some_bind, Option.map_some' ]
        congr 1
        have e1 : b1 / 4 * 4 + (b1 % 4 * 16 + b2 / 16) / 16 = b1 := by omega
        have e2 : (b1 % 4 * 16 + b2 / 16) % 16 * 16 +
            (b2 % 16 * 4 + b3 / 64) / 4 = b2 := by omega
        have e3 : (b2 % 16 * 4 + b3 / 64) % 4 * 64 + b3 % 64 = b3 := by omega
        rw [e1, e2, e3]
      · rw [if_neg (by
          rintro ⟨-, -, hr⟩
          exact hre hr)]
        rw [if_neg (by
          rintro ⟨hc4, -⟩
          exact b64Char_ne_61 _ (by omega) hc4)]
        rw [b64Index_b64Char _ (by omega), b64Index_b64Char _ (by omega),
          b64Index_b64Char _ (by omega), b64Index_b64Char _ (by omega)]
        rw [ih hrest]
        simp only [Option.some_bind, Option.map_some' ]
        congr 1
        have e1 : b1 / 4 * 4 + (b1 % 4 * 16 + b2 / 16) / 16 = b1 := by omega
        have e2 : (b1 % 4 * 16 + b2 / 16) % 16 * 16 +
            (b2 % 16 * 4 + b3 / 64) / 4 = b2 := by omega
        have e3 : (b2 % 16 * 4 + b3 / 64) % 4 * 64 + b3 % 64 = b3 := by omega
        rw [e1, e2, e3]

theorem base64Encode_injOn (bs1 bs2 : List Nat) (h1 : ∀ x ∈ bs1, x < 256)
    (h2 : ∀ x ∈ bs2, x < 256) (h : base64Encode bs1 = base64Encode bs2) :
    bs1 = bs2 := by
  have := base64Decode_base64Encode bs1 h1
  rw [h, base64Decode_base64Encode bs2 h2] at this
  exact (Option.some_inj.mp this).symm

end StegoX

/-! ### CipherBox (`encryptor.py`): PKCS#7 padding, CBC chaining over an
abstract 16-byte block cipher, SHA-256 key derivation, base64 transport -/

namespace StegoX

/-- Byte-wise XOR, the combining step of CBC mode. -/
def xorBytes (a b : List Nat) : List Nat := List.zipWith (· ^^^ ·) a b

theorem xorBytes_length (a b : List Nat) :
    (xorBytes a b).length = min a.length b.length := by
  simp [xorBytes]

theorem xorBytes_cancel (a b : List Nat) (h : a.length = b.length) :
    xorBytes a (xorBytes a b) = b := by
  induction a generalizing b with
  | nil =>
      cases b with
      | nil => rfl
      | cons y ys => simp at h
  | cons x xs ih =>
      cases b with
      | nil => simp at h
      | cons y ys =>
          simp only [xorBytes, List.zipWith_cons_cons] at *
          rw [Nat.xor_cancel_left]
          rw [ih ys (by simpa using h)]

theorem xorBytes_lt_256 : ∀ (a b : List Nat), (∀ x ∈ a, x < 256) →
    (∀ x ∈ b, x < 256) → ∀ x ∈ xorBytes a b, x < 256 := by
  intro a
  induction a with
  | nil => intro b _ _ x hx; simp [xorBytes] at hx
  | cons p ps ih =>
      intro b ha hb x hx
      cases b with
      | nil => simp [xorBytes] at hx
      | cons q qs =>
          simp only [xorBytes, List.zipWith_cons_cons, List.mem_cons] at hx
          rcases hx with rfl | hx
          · exact Nat.xor_lt_two_pow (n := 8) (ha p (by simp)) (hb q (by simp))
          · exact ih qs (fun y hy => ha y (by simp [hy]))
              (fun y hy => hb y (by simp [hy])) x hx

/-- Split a byte string into consecutive 16-byte blocks (the block
traversal performed by the library's CBC mode). -/
def chunks16 : List Nat → List (List Nat)
  | [] => []
  | b0 :: b1 :: b2 :: b3 :: b4 :: b5 :: b6 :: b7 ::
    b8 :: b9 :: b10 :: b11 :: b12 :: b13 :: b14 :: b15 :: rest =>
      [b0, b1, b2, b3, b4, b5, b6, b7,
       b8, b9, b10, b11, b12, b13, b14, b15] :: chunks16 rest
  | l => [l]

theorem chunks16_eq (l : List Nat) (h : l ≠ []) :
    chunks16 l = l.take 16 :: chunks16 (l.drop 16) := by
  rcases l with _ | ⟨b0, _ | ⟨b1, _ | ⟨b2, _ | ⟨b3, _ | ⟨b4, _ | ⟨b5,
    _ | ⟨b6, _ | ⟨b7, _ | ⟨b8, _ | ⟨b9, _ | ⟨b10, _ | ⟨b11, _ | ⟨b12,
    _ | ⟨b13, _ | ⟨b14, _ | ⟨b15, rest⟩⟩⟩⟩⟩⟩⟩⟩⟩⟩⟩⟩⟩⟩⟩⟩
  · exact absurd rfl h
  · rfl
  · rfl
  · rfl
  · rfl
  · rfl
  · rfl
  · rfl
  · rfl
  · rfl
  · rfl
  · rfl
  · rfl
  · rfl
  · rfl
  · rfl
  · rfl

theorem chunks16_spec (l : List Nat) (h : l.length % 16 = 0) :
    (chunks16 l).flatten = l ∧ ∀ b ∈ chunks16 l, b.length = 16 := by
  have main : ∀ n (l : List Nat), l.length = n → l.length % 16 = 0 →
      (chunks16 l).flatten = l ∧ ∀ b ∈ chunks16 l, b.length = 16 := by
    intro n
    induction n using Nat.strong_induction_on with
    | _ n ih =>
      intro l hlen hl16
      by_cases hnil : l = []
      · subst hnil
        simp [chunks16]
      · rw [chunks16_eq l hnil]
        have hpos : 0 < l.length := List.length_pos_of_ne_nil hnil
        have h16 : 16 ≤ l.length := by omega
        have htake : (l.take 16).length = 16 := by
          rw [List.length_take]
          omega
        have hdrop : (l.drop 16).length = l.length - 16 := by
          simp
        have hrec := ih (l.length - 16) (by omega) (l.drop 16)
          (by omega) (by omega)
        refine ⟨?_, ?_⟩
        · simp only [List.flatten_cons]
          rw [hrec.1, List.take_append_drop]
        · intro b hb
          simp only [List.mem_cons] at hb
          rcases hb with rfl | hb
          · exact htake
          · exact hrec.2 b hb
  exact main l.length l rfl h

theorem chunks16_flatten (blocks : List (List Nat))
    (h : ∀ b ∈ blocks, b.length = 16) :
    chunks16 blocks.flatten = blocks := by
  induction blocks with
  | nil => simp [chunks16]
  | cons b bs ih =>
      have hb : b.length = 16 := h b (by simp)
      have hnil : b ++ bs.flatten ≠ [] := by
        intro hx
        have := congrArg List.length hx
        simp [hb] at this
      simp only [List.flatten_cons]
      rw [chunks16_eq _ hnil]
      have ht : (b ++ bs.flatten).take 16 = b := by
        conv_lhs => rw [← hb]
        exact List.take_left b bs.flatten
      have hd : (b ++ bs.flatten).drop 16 = bs.flatten := by
        conv_lhs => rw [← hb]
        exact List.drop_left b bs.flatten
      rw [ht, hd, ih (fun x hx => h x (by simp [hx]))]

/-- CBC encryption over a list of plaintext blocks:
`c_i = E_k(c_(i-1) XOR p_i)` with `c_0` the IV. -/
def cbcEncryptBlocks (E : List Nat → List Nat → List Nat) (k : List Nat) :
    List Nat → List (List Nat) → List (List Nat)
  | _, [] => []
  | prev, p :: ps =>
      let c := E k (xorBytes prev p)
      c :: cbcEncryptBlocks E k c ps

/-- CBC decryption over a list of ciphertext blocks:
`p_i = D_k(c_i) XOR c_(i-1)`. -/
def cbcDecryptBlocks (D : List Nat → List Nat → List Nat) (k : List Nat) :
    List Nat → List (List Nat) → List (List Nat)
  | _, [] => []
  | prev, c :: cs => xorBytes prev (D k c) :: cbcDecryptBlocks D k c cs

/-- `AES.new(key, AES.MODE_CBC, iv).encrypt(data)` for block-aligned
`data`, with the block primitive `E` abstract. -/
def cbcEncrypt (E : List Nat → List Nat → List Nat) (k iv data : List Nat) :
    List Nat :=
  (cbcEncryptBlocks E k iv (chunks16 data)).flatten

/-- `AES.new(key, AES.MODE_CBC, iv).decrypt(data)` for block-aligned
`data`, with the inverse block primitive `D` abstract. -/
def cbcDecrypt (D : List Nat → List Nat → List Nat) (k iv data : List Nat) :
    List Nat :=
  (cbcDecryptBlocks D k iv (chunks16 data)).flatten

section BlockCipher

variable (E D : List Nat → List Nat → List Nat) (k : List Nat)

theorem cbcEncryptBlocks_blocklen
    (hLen : ∀ b, b.length = 16 → (E k b).length = 16) :
    ∀ (blocks : List (List Nat)) (prev : List Nat), prev.length = 16 →
      (∀ b ∈ blocks, b.length = 16) →
      ∀ c ∈ cbcEncryptBlocks E k prev blocks, c.length = 16 := by
  intro blocks
  induction blocks with
  | nil => intro prev _ _ c hc; simp [cbcEncryptBlocks] at hc
  | cons p ps ih =>
      intro prev hprev hall c hc
      have hp : p.length = 16 := hall p (by simp)
      have hx : (xorBytes prev p).length = 16 := by
        rw [xorBytes_length, hprev, hp]
        omega
      simp only [cbcEncryptBlocks, List.mem_cons] at hc
      rcases hc with rfl | hc
      · exact hLen _ hx
      · exact ih _ (hLen _ hx) (fun b hb => hall b (by simp [hb])) c hc

theorem cbcEncryptBlocks_lt_256
    (hLen : ∀ b, b.length = 16 → (E k b).length = 16)
    (hByte : ∀ b, b.length = 16 → (∀ x ∈ b, x < 256) → ∀ x ∈ E k b, x < 256) :
    ∀ (blocks : List (List Nat)) (prev : List Nat), prev.length = 16 →
      (∀ x ∈ prev, x < 256) →
      (∀ b ∈ blocks, b.length = 16) →
      (∀ b ∈ blocks, ∀ x ∈ b, x < 256) →
      ∀ c ∈ cbcEncryptBlocks E k prev blocks, ∀ x ∈ c, x < 256 := by
  intro blocks
  induction blocks with
  | nil => intro prev _ _ _ _ c hc; simp [cbcEncryptBlocks] at hc
  | cons p ps ih =>
      intro prev hprev hprevB hall hallB c hc
      have hp : p.length = 16 := hall p (by simp)
      have hx : (xorBytes prev p).length = 16 := by
        rw [xorBytes_length, hprev, hp]
        omega
      have hxB : ∀ x ∈ xorBytes prev p, x < 256 :=
        xorBytes_lt_256 prev p hprevB (hallB p (by simp))
      simp only [cbcEncryptBlocks, List.mem_cons] at hc
      rcases hc with rfl | hc
      · exact hByte _ hx hxB
      · exact ih _ (hLen _ hx) (hByte _ hx hxB)
          (fun b hb => hall b (by simp [hb]))
          (fun b hb => hallB b (by simp [hb])) c hc

theorem cbcDecryptBlocks_cbcEncryptBlocks
    (hInv : ∀ b, b.length = 16 → D k (E k b) = b)
    (hLen : ∀ b, b.length = 16 → (E k b).length = 16) :
    ∀ (blocks : List (List Nat)) (prev : List Nat), prev.length = 16 →
      (∀ b ∈ blocks, b.length = 16) →
      cbcDecryptBlocks D k prev (cbcEncryptBlocks E k prev blocks) = blocks := by
  intro blocks
  induction blocks with
  | nil => intro prev _ _; rfl
  | cons p ps ih =>
      intro prev hprev hall
      have hp : p.length = 16 := hall p (by simp)
      have hx : (xorBytes prev p).length = 16 := by
        rw [xorBytes_length, hprev, hp]
        omega
      simp only [cbcEncryptBlocks, cbcDecryptBlocks]
      rw [hInv _ hx, xorBytes_cancel prev p (by omega)]
      rw [ih _ (hLen _ hx) (fun b hb => hall b (by simp [hb]))]

end BlockCipher

/-- `Crypto.Util.Padding.pad(data, 16)` (PKCS#7): append `n` copies of
`n`, where `n = 16 - len(data) % 16`. -/
def pad (bs : List Nat) : List Nat :=
  let n := 16 - bs.length % 16
  bs ++ List.replicate n n

/-- `Crypto.Util.Padding.unpad(data, 16)` (PKCS#7): require nonempty
block-aligned data whose last byte `n` lies in `1..16` and whose last `n`
bytes all equal `n`; strip them.  `none` models the `ValueError`. -/
def unpad (bs : List Nat) : Option (List Nat) :=
  if bs.length = 0 ∨ bs.length % 16 ≠ 0 then none
  else
    let n := bs.getLastD 0
    if n = 0 ∨ 16 < n then none
    else if bs.drop (bs.length - n) = List.replicate n n then
      some (bs.take (bs.length - n))
    else none

theorem pad_length_mod (bs : List Nat) : (pad bs).length % 16 = 0 := by
  simp only [pad, List.length_append, List.length_replicate]
  omega

theorem pad_lt_256 (bs : List Nat) (h : ∀ x ∈ bs, x < 256) :
    ∀ x ∈ pad bs, x < 256 := by
  intro x hx
  simp only [pad, List.mem_append, List.mem_replicate] at hx
  rcases hx with hx | ⟨-, rfl⟩
  · exact h x hx
  · omega

theorem unpad_pad (bs : List Nat) : unpad (pad bs) = some bs := by
  have hn1 : 1 ≤ 16 - bs.length % 16 := by omega
  have hn16 : 16 - bs.length % 16 ≤ 16 := by omega
  set n := 16 - bs.length % 16 with hn
  have hlen : (pad bs).length = bs.length + n := by
    simp only [pad, List.length_append, List.length_replicate]
  obtain ⟨m, hm⟩ : ∃ m, n = m + 1 := ⟨n - 1, by omega⟩
  have hrep : List.replicate n n = List.replicate m n ++ [n] := by
    rw [hm]
    exact List.replicate_succ' m (m + 1)
  have hpad : pad bs = bs ++ List.replicate n n := by
    simp only [pad]
  have hlast : (pad bs).getLastD 0 = n := by
    rw [hpad, hrep, ← List.append_assoc, List.getLastD_eq_getLast?,
      List.getLast?_concat]
    rfl
  have hdrop : (pad bs).drop ((pad bs).length - n) = List.replicate n n := by
    rw [hlen, hpad]
    have h2 : bs.length + n - n = bs.length := by omega
    rw [h2]
    exact List.drop_left bs _
  rw [unpad]
  rw [if_neg (by
    rw [hlen]
    push_neg
    refine ⟨by omega, by omega⟩)]
  simp only [hlast]
  rw [if_neg (by omega), if_pos hdrop, hlen, hpad]
  have h2 : bs.length + n - n = bs.length := by omega
  rw [h2, List.take_left]

end StegoX

/-! ### `encrypt_message` / `decrypt_message` -/

namespace StegoX

/-- `derive_key(password)`: SHA-256 of the UTF-8 password bytes.  The
digest itself is an external library primitive, abstracted as `sha256`. -/
def derive_key (sha256 : List Nat → List Nat) (password : List Nat) :
    List Nat :=
  sha256 (utf8Encode password)

/-- `encrypt_message(message, password)` with the fresh random IV made
explicit: derive the key, pad the UTF-8 plaintext, CBC-encrypt, prepend
the IV and base64-encode.  Returns the ASCII codes of the transport
string. -/
def encrypt_message (E : List Nat → List Nat → List Nat)
    (sha256 : List Nat → List Nat) (message password iv : List Nat) :
    List Nat :=
  let key := derive_key sha256 password
  let padded := pad (utf8Encode message)
  let encrypted_data := cbcEncrypt E key iv padded
  base64Encode (iv ++ encrypted_data)

/-- `decrypt_message(encrypted_message, password)`: base64-decode, split
off the 16-byte IV, CBC-decrypt, strip the PKCS#7 padding, decode as
UTF-8.  Any library error (`binascii.Error`, bad IV length, non-aligned
ciphertext, bad padding, invalid UTF-8) is re-raised as the wrapped
`Exception`, modelled as `none`. -/
def decrypt_message (D : List Nat → List Nat → List Nat)
    (sha256 : List Nat → List Nat) (encrypted_message password : List Nat) :
    Option (List Nat) :=
  (base64Decode encrypted_message).bind fun encrypted_with_iv =>
    let key := derive_key sha256 password
    let iv := encrypted_with_iv.take 16
    let encrypted_data := encrypted_with_iv.drop 16
    if iv.length = 16 ∧ encrypted_data.length % 16 = 0 then
      (unpad (cbcDecrypt D key iv encrypted_data)).bind utf8DecodeStrict
    else none

/-- Contract of the external AES-256 block primitive: `D k` inverts `E k`
on 16-byte blocks, and `E k` maps 16-byte blocks of bytes to 16-byte
blocks of bytes. -/
def BlockCipherPair (E D : List Nat → List Nat → List Nat) : Prop :=
  ∀ k b, b.length = 16 →
    (D k (E k b) = b ∧ (E k b).length = 16 ∧
      ((∀ x ∈ b, x < 256) → ∀ x ∈ E k b, x < 256))

theorem cbcEncrypt_length_mod (E : List Nat → List Nat → List Nat)
    (k iv data : List Nat) (hE : ∀ b, b.length = 16 → (E k b).length = 16)
    (hiv : iv.length = 16) (hdata : data.length % 16 = 0) :
    (cbcEncrypt E k iv data).length % 16 = 0 := by
  rw [cbcEncrypt]
  obtain ⟨-, hblocks⟩ := chunks16_spec data hdata
  have hall := cbcEncryptBlocks_blocklen E k hE (chunks16 data) iv hiv hblocks
  generalize hbl : cbcEncryptBlocks E k iv (chunks16 data) = bl at hall
  clear hbl hblocks
  induction bl with
  | nil => simp
  | cons c cs ih =>
      simp only [List.flatten_cons, List.length_append]
      have hc : c.length = 16 := hall c (by simp)
      have := ih (fun b hb => hall b (by simp [hb]))
      omega

/-- CBC decryption inverts CBC encryption on block-aligned data. -/
theorem cbcDecrypt_cbcEncrypt (E D : List Nat → List Nat → List Nat)
    (k iv data : List Nat)
    (hInv : ∀ b, b.length = 16 → D k (E k b) = b)
    (hLen : ∀ b, b.length = 16 → (E k b).length = 16)
    (hiv : iv.length = 16) (hdata : data.length % 16 = 0) :
    cbcDecrypt D k iv (cbcEncrypt E k iv data) = data := by
  rw [cbcEncrypt, cbcDecrypt]
  obtain ⟨hflat, hblocks⟩ := chunks16_spec data hdata
  have hall := cbcEncryptBlocks_blocklen E k hLen (chunks16 data) iv hiv hblocks
  rw [chunks16_flatten _ hall]
  rw [cbcDecryptBlocks_cbcEncryptBlocks E D k hInv hLen _ iv hiv hblocks]
  exact hflat

theorem cbcEncrypt_lt_256 (E : List Nat → List Nat → List Nat)
    (k iv data : List Nat)
    (hLen : ∀ b, b.length = 16 → (E k b).length = 16)
    (hByte : ∀ b, b.length = 16 → (∀ x ∈ b, x < 256) → ∀ x ∈ E k b, x < 256)
    (hiv : iv.length = 16) (hivB : ∀ x ∈ iv, x < 256)
    (hdata : data.length % 16 = 0) (hdataB : ∀ x ∈ data, x < 256) :
    ∀ x ∈ cbcEncrypt E k iv data, x < 256 := by
  rw [cbcEncrypt]
  obtain ⟨hflat, hblocks⟩ := chunks16_spec data hdata
  have hmemB : ∀ b ∈ chunks16 data, ∀ x ∈ b, x < 256 := by
    intro b hb x hx
    apply hdataB
    rw [← hflat]
    exact List.mem_flatten.mpr ⟨b, hb, hx⟩
  have hall := cbcEncryptBlocks_lt_256 E k hLen hByte (chunks16 data) iv hiv
    hivB hblocks hmemB
  intro x hx
  obtain ⟨c, hc, hxc⟩ := List.mem_flatten.mp hx
  exact hall c hc x hxc

/-- Decryption with the same password inverts encryption, for any block
cipher satisfying the library contract, any valid plaintext and any
16-byte IV of bytes. -/
theorem decrypt_message_encrypt_message
    (E D : List Nat → List Nat → List Nat) (sha256 : List Nat → List Nat)
    (hED : BlockCipherPair E D) (message password iv : List Nat)
    (hmsg : ∀ c ∈ message, ValidScalar c)
    (hiv : iv.length = 16) (hivB : ∀ x ∈ iv, x < 256) :
    decrypt_message D sha256 (encrypt_message E sha256 message password iv)
      password = some message := by
  have hInv : ∀ b, b.length = 16 →
      D (derive_key sha256 password) (E (derive_key sha256 password) b) = b :=
    fun b hb => (hED _ b hb).1
  have hLen : ∀ b, b.length = 16 →
      (E (derive_key sha256 password) b).length = 16 :=
    fun b hb => (hED _ b hb).2.1
  have hByte : ∀ b, b.length = 16 → (∀ x ∈ b, x < 256) →
      ∀ x ∈ E (derive_key sha256 password) b, x < 256 :=
    fun b hb => (hED _ b hb).2.2
  have hpadlen : (pad (utf8Encode message)).length % 16 = 0 :=
    pad_length_mod _
  have hpadB : ∀ x ∈ pad (utf8Encode message), x < 256 :=
    pad_lt_256 _ (utf8Encode_lt_256 message (fun c hc => (hmsg c hc).1))
  have hctmod := cbcEncrypt_length_mod E (derive_key sha256 password) iv
    (pad (utf8Encode message)) hLen hiv hpadlen
  have hctB := cbcEncrypt_lt_256 E (derive_key sha256 password) iv
    (pad (utf8Encode message)) hLen hByte hiv hivB hpadlen hpadB
  have hdataB : ∀ x ∈ iv ++ cbcEncrypt E (derive_key sha256 password) iv
      (pad (utf8Encode message)), x < 256 := by
    intro x hx
    rcases List.mem_append.mp hx with hx | hx
    · exact hivB x hx
    · exact hctB x hx
  have htake : (iv ++ cbcEncrypt E (derive_key sha256 password) iv
      (pad (utf8Encode message))).take 16 = iv := by
    conv_lhs => rw [← hiv]
    exact List.take_left _ _
  have hdrop : (iv ++ cbcEncrypt E (derive_key sha256 password) iv
      (pad (utf8Encode message))).drop 16 =
      cbcEncrypt E (derive_key sha256 password) iv
        (pad (utf8Encode message)) := by
    conv_lhs => rw [← hiv]
    exact List.drop_left _ _
  simp only [encrypt_message, decrypt_message]
  rw [base64Decode_base64Encode _ hdataB]
  simp only [Option.some_bind]
  rw [htake, hdrop]
  rw [if_pos ⟨hiv, hctmod⟩]
  rw [cbcDecrypt_cbcEncrypt E D (derive_key sha256 password) iv
    (pad (utf8Encode message)) hInv hLen hiv hpadlen]
  rw [unpad_pad]
  simp only [Option.some_bind]
  exact utf8DecodeStrict_utf8Encode message hmsg

end StegoX

/-! ### Pipelines (Hide/Reveal composition) and boolean wrappers -/

namespace StegoX

/-- The Hide chain for an image carrier: encrypt, frame, capacity-check,
embed (`hide_message_in_image` between load and save). -/
def hidePipelineImage (E : List Nat → List Nat → List Nat)
    (sha256 : List Nat → List Nat) (flat_pixels message password iv : List Nat) :
    Except CapacityError (List Nat) :=
  hideCoreImage flat_pixels (encrypt_message E sha256 message password iv)

/-- The Hide chain for an audio carrier. -/
def hidePipelineAudio (E : List Nat → List Nat → List Nat)
    (sha256 : List Nat → List Nat) (audio_data message password iv : List Nat) :
    Except CapacityError (List Nat) :=
  hideCoreAudio audio_data (encrypt_message E sha256 message password iv)

/-- The Reveal chain (identical for both carrier types): extract LSBs, cut
at the first end marker, decode bits to text, decrypt. -/
def revealPipeline (D : List Nat → List Nat → List Nat)
    (sha256 : List Nat → List Nat) (carrier password : List Nat) :
    Option (List Nat) :=
  (extract_message carrier).bind fun extracted =>
    decrypt_message D sha256 extracted password

/-- The boolean wrapper `hide_message_in_image`: any internal error —
failed load, capacity `ValueError`, failed save — is caught by the
blanket `except` and reported as `False`; `True` is returned only after
the stego image was saved.  The filesystem effects are summarised by
their outcomes. -/
def hide_message_in_image (imageLoad : Except String (List Nat))
    (encrypted_message : List Nat) (saveOk : Bool) : Bool :=
  match imageLoad with
  | Except.error _ => false
  | Except.ok flat_pixels =>
      match hideCoreImage flat_pixels encrypted_message with
      | Except.error _ => false
      | Except.ok _ => saveOk

/-- The boolean wrapper `hide_message_in_audio`, same shape. -/
def hide_message_in_audio (audioLoad : Except String (List Nat))
    (encrypted_message : List Nat) (writeOk : Bool) : Bool :=
  match audioLoad with
  | Except.error _ => false
  | Except.ok audio_data =>
      match hideCoreAudio audio_data encrypted_message with
      | Except.error _ => false
      | Except.ok _ => writeOk

end StegoX

/-! ### VoiceGate (`voice_auth.py`): similarity scoring and fail-soft
transcription -/

namespace StegoX

/-- `_calculate_similarity` on normalized texts, represented by their
whitespace token lists (a normalized text is the space-join of its
tokens, so list equality coincides with string equality and `not text`
coincides with the empty token list). -/
def calculate_similarity (text1 text2 : List String) : ℚ :=
  if text1 = [] ∨ text2 = [] then 0
  else if text1 = text2 then 1
  else
    let words1 := text1.toFinset
    let words2 := text2.toFinset
    if words1 = ∅ ∨ words2 = ∅ then 0
    else
      let intersection := (words1 ∩ words2).card
      let union := (words1 ∪ words2).card
      if 0 < union then (intersection : ℚ) / (union : ℚ) else 0

/-- The decision of `verify_passphrase`:
`verified = similarity >= similarity_threshold`. -/
def verify_decision (similarity threshold : ℚ) : Bool :=
  threshold ≤ similarity

/-- The dict returned by `transcribe_audio`. -/
structure Transcript where
  text : String
  normalized_text : String
  language : String
  confidence : ℚ
  success : Bool
  error : Option String
  deriving DecidableEq

/-- What the Whisper model call yields when it does not raise: the raw
text, the optional detected language (`result.get("language", "unknown")`)
and the per-segment `avg_logprob` values (absent keys default to 0 in the
code, so a plain list suffices). -/
structure WhisperResult where
  text : String
  language : Option String
  segments : List ℚ
  deriving DecidableEq

/-- `transcribe_audio` with its effects summarised by their outcome: the
`try` body either produces a `WhisperResult` or raises, and the blanket
`except` converts any raise into a failed `Transcript` instead of
propagating it. -/
def transcribe_audio (normalize : String → String) :
    Except String WhisperResult → Transcript
  | Except.error e =>
      { text := ""
        normalized_text := ""
        language := "unknown"
        confidence := 0
        success := false
        error := some e }
  | Except.ok r =>
      let transcribed_text := r.text.trim
      { text := transcribed_text
        normalized_text := normalize transcribed_text
        language := r.language.getD "unknown"
        confidence :=
          if r.segments.isEmpty then 0
          else r.segments.sum / (r.segments.length : ℚ)
        success := true
        error := none }

end StegoX

/-! ### Shared helper lemmas for the claim theorems -/

namespace StegoX

theorem binary_to_text_text_to_binary (cps : List Nat)
    (h : ∀ c ∈ cps, ValidScalar c) :
    binary_to_text (text_to_binary cps) = cps := by
  rw [binary_to_text, text_to_binary,
    bitsToBytes_bytesToBits _ (utf8Encode_lt_256 cps (fun c hc => (h c hc).1)),
    utf8DecodeLossy_utf8Encode cps h]

theorem hideCoreImage_eq_error (px msg : List Nat)
    (h : px.length < (text_to_binary msg ++ END_MARKER).length) :
    hideCoreImage px msg =
      Except.error ⟨px.length, (text_to_binary msg ++ END_MARKER).length⟩ := by
  simp only [hideCoreImage]
  rw [if_pos h]

theorem hideCoreImage_eq_ok (px msg : List Nat)
    (h : (text_to_binary msg ++ END_MARKER).length ≤ px.length) :
    hideCoreImage px msg =
      Except.ok (fast_embed_pixels (text_to_binary msg ++ END_MARKER) px) := by
  simp only [hideCoreImage]
  rw [if_neg (by omega)]

theorem hideCoreAudio_eq_error (au msg : List Nat)
    (h : au.length < (text_to_binary msg ++ END_MARKER).length) :
    hideCoreAudio au msg =
      Except.error ⟨au.length, (text_to_binary msg ++ END_MARKER).length⟩ := by
  simp only [hideCoreAudio]
  rw [if_pos h]

theorem hideCoreAudio_eq_ok (au msg : List Nat)
    (h : (text_to_binary msg ++ END_MARKER).length ≤ au.length) :
    hideCoreAudio au msg =
      Except.ok (audio_embed (text_to_binary msg ++ END_MARKER) au) := by
  simp only [hideCoreAudio]
  rw [if_neg (by omega)]

theorem embedLSB_frame_effect (n : Nat) (hn : 1 ≤ n) (bits : List Bool)
    (samples : List Nat) (hlen : bits.length ≤ samples.length)
    (hrange : ∀ s ∈ samples, s < 2 ^ n) :
    (embedLSB (2 ^ n - 2) bits samples).length = samples.length ∧
    (∀ i, i < bits.length →
      (embedLSB (2 ^ n - 2) bits samples).getD i 0 % 2 =
        bitVal (bits.getD i false) ∧
      (embedLSB (2 ^ n - 2) bits samples).getD i 0 / 2 =
        samples.getD i 0 / 2) ∧
    (∀ j, bits.length ≤ j →
      (embedLSB (2 ^ n - 2) bits samples).getD j 0 = samples.getD j 0) := by
  refine ⟨embedLSB_length _ _ _, ?_, ?_⟩
  · intro i hi
    have his : i < samples.length := lt_of_lt_of_le hi hlen
    rw [embedLSB_getD_lt _ _ _ i hi his]
    have hmem : samples.getD i 0 ∈ samples := by
      rw [List.getD_eq_getElem samples 0 his]
      exact List.getElem_mem his
    have hs := hrange _ hmem
    have hmask : (2 ^ n - 2) % 2 = 0 := by
      have hp : 2 ^ n = 2 * 2 ^ (n - 1) := by
        conv_lhs => rw [show n = (n - 1) + 1 by omega]
        rw [pow_succ]
        ring
      omega
    exact ⟨embed_elem_mod_two _ _ hmask _, embed_elem_div_two n _ hn hs _⟩
  · intro j hj
    exact embedLSB_getD_ge _ _ _ j hj

end StegoX

/-! ### Claim theorems -/

namespace StegoX

/-- C7: codec round trip and totality.  For every string of Unicode scalar
values, decoding the bit encoding returns the string exactly; decoding is
a total function (`binary_to_text` is defined for every bit string) that
consumes complete 8-bit groups, ignores a trailing group of fewer than 8
bits, and falls back to lossy UTF-8 decoding instead of raising. -/
theorem claim_C7_codec_round_trip (cps : List Nat)
    (h : ∀ c ∈ cps, ValidScalar c) :
    binary_to_text (text_to_binary cps) = cps ∧
    ∀ (bits extra : List Bool), bits.length % 8 = 0 → extra.length < 8 →
      binary_to_text (bits ++ extra) = binary_to_text bits := by
  refine ⟨binary_to_text_text_to_binary cps h, ?_⟩
  intro bits extra h8 hsmall
  rw [binary_to_text, binary_to_text,
    bitsToBytes_append_small bits extra h8 hsmall]

/-- Witness for C7 at a concrete string covering the 1-, 2-, 3- and
4-byte UTF-8 ranges. -/
theorem claim_C7_witness :
    binary_to_text (text_to_binary [72, 233, 8364, 128512]) =
      [72, 233, 8364, 128512] :=
  (claim_C7_codec_round_trip [72, 233, 8364, 128512] (by decide)).1

/-- C2: embedding frame effect, for both carrier variants.  With
`len(bits) ≤ len(samples)` and samples in range of their element type
(uint8 pixels, int16 PCM samples), the embedded copy has the carrier's
length; element `i < len(bits)` carries bit `i` in its LSB with all
higher bits unchanged (`r[i] % 2 = bit i` and `r[i] / 2 = s[i] / 2`); and
every element from `len(bits)` on is unchanged.  The input list itself is
never mutated: both loops write into a fresh copy, modelled here by
`embedLSB` returning a new list. -/
theorem claim_C2_embed_frame_effect (bits : List Bool) (samples : List Nat)
    (hlen : bits.length ≤ samples.length) :
    ((∀ s ∈ samples, s < 256) →
      (fast_embed_pixels bits samples).length = samples.length ∧
      (∀ i, i < bits.length →
        (fast_embed_pixels bits samples).getD i 0 % 2 =
          bitVal (bits.getD i false) ∧
        (fast_embed_pixels bits samples).getD i 0 / 2 =
          samples.getD i 0 / 2) ∧
      (∀ j, bits.length ≤ j →
        (fast_embed_pixels bits samples).getD j 0 = samples.getD j 0)) ∧
    ((∀ s ∈ samples, s < 65536) →
      (audio_embed bits samples).length = samples.length ∧
      (∀ i, i < bits.length →
        (audio_embed bits samples).getD i 0 % 2 =
          bitVal (bits.getD i false) ∧
        (audio_embed bits samples).getD i 0 / 2 =
          samples.getD i 0 / 2) ∧
      (∀ j, bits.length ≤ j →
        (audio_embed bits samples).getD j 0 = samples.getD j 0)) := by
  have h8 : (2 : Nat) ^ 8 - 2 = 254 := by norm_num
  have h16 : (2 : Nat) ^ 16 - 2 = 65534 := by norm_num
  have h8c : (2 : Nat) ^ 8 = 256 := by norm_num
  have h16c : (2 : Nat) ^ 16 = 65536 := by norm_num
  constructor
  · intro hrange
    have := embedLSB_frame_effect 8 (by omega) bits samples hlen
      (by intro s hs; rw [h8c]; exact hrange s hs)
    rw [h8] at this
    exact this
  · intro hrange
    have := embedLSB_frame_effect 16 (by omega) bits samples hlen
      (by intro s hs; rw [h16c]; exact hrange s hs)
    rw [h16] at this
    exact this

/-- Witness for C2 at a concrete two-bit message and three-pixel carrier. -/
theorem claim_C2_witness :
    (fast_embed_pixels [true, false] [7, 8, 9]).length = 3 ∧
    (∀ i, i < ([true, false] : List Bool).length →
      (fast_embed_pixels [true, false] [7, 8, 9]).getD i 0 % 2 =
        bitVal (([true, false] : List Bool).getD i false) ∧
      (fast_embed_pixels [true, false] [7, 8, 9]).getD i 0 / 2 =
        ([7, 8, 9] : List Nat).getD i 0 / 2) ∧
    (∀ j, ([true, false] : List Bool).length ≤ j →
      (fast_embed_pixels [true, false] [7, 8, 9]).getD j 0 =
        ([7, 8, 9] : List Nat).getD j 0) := by
  have h := (claim_C2_embed_frame_effect [true, false] [7, 8, 9]
    (by decide)).1 (by decide)
  simpa using h

/-- C3: capacity boundary.  The framed payload length is 8 bits per UTF-8
byte plus the 16 marker bits; if it exceeds the carrier's element count,
both hide cores fail with the capacity error carrying exactly the
capacity and the payload length and produce no output carrier; if it is
at most the capacity (including exactly equal) they succeed. -/
theorem claim_C3_capacity_boundary (carrier msg : List Nat) :
    (text_to_binary msg ++ END_MARKER).length =
      8 * (utf8Encode msg).length + 16 ∧
    (carrier.length < (text_to_binary msg ++ END_MARKER).length →
      hideCoreImage carrier msg =
        Except.error ⟨carrier.length,
          (text_to_binary msg ++ END_MARKER).length⟩ ∧
      hideCoreAudio carrier msg =
        Except.error ⟨carrier.length,
          (text_to_binary msg ++ END_MARKER).length⟩) ∧
    ((text_to_binary msg ++ END_MARKER).length ≤ carrier.length →
      hideCoreImage carrier msg =
        Except.ok (fast_embed_pixels (text_to_binary msg ++ END_MARKER)
          carrier) ∧
      hideCoreAudio carrier msg =
        Except.ok (audio_embed (text_to_binary msg ++ END_MARKER)
          carrier)) := by
  refine ⟨?_, ?_, ?_⟩
  · rw [List.length_append, text_to_binary_length, END_MARKER_length]
  · intro hlt
    exact ⟨hideCoreImage_eq_error carrier msg hlt,
      hideCoreAudio_eq_error carrier msg hlt⟩
  · intro hle
    exact ⟨hideCoreImage_eq_ok carrier msg hle,
      hideCoreAudio_eq_ok carrier msg hle⟩

/-- Witness for C3: a message of exactly the carrier capacity (24 bits
for one ASCII character plus the marker) succeeds; one element less
fails with the two numbers reported. -/
theorem claim_C3_witness :
    hideCoreImage (List.replicate 24 0) [65] =
      Except.ok (fast_embed_pixels (text_to_binary [65] ++ END_MARKER)
        (List.replicate 24 0)) ∧
    hideCoreAudio (List.replicate 23 0) [65] =
      Except.error ⟨(List.replicate 23 (0 : Nat)).length,
        (text_to_binary [65] ++ END_MARKER).length⟩ := by
  constructor
  · exact ((claim_C3_capacity_boundary (List.replicate 24 0) [65]).2.2
      (by decide)).1
  · exact ((claim_C3_capacity_boundary (List.replicate 23 0) [65]).2.1
      (by decide)).2

/-- C4: unframe semantics.  When `unframePrefix` returns a prefix, the
bit string splits as that prefix, the marker, and a remainder, and the
prefix is the shortest such (first occurrence, so a marker pattern inside
the payload truncates early); it returns `none` exactly when the marker
occurs nowhere, and `extract_message` fails (the `ValueError`) exactly
then, otherwise decoding the cut prefix. -/
theorem claim_C4_unframe_semantics (bits : List Bool) :
    (∀ p, unframePrefix bits = some p →
      (∃ r, bits = p ++ END_MARKER ++ r) ∧
        ∀ l r, bits = l ++ END_MARKER ++ r → p.length ≤ l.length) ∧
    (unframePrefix bits = none ↔ ∀ l r, bits ≠ l ++ END_MARKER ++ r) ∧
    (∀ carrier : List Nat, carrier.map lsb = bits →
      (extract_message carrier = none ↔ unframePrefix bits = none) ∧
      ∀ p, unframePrefix bits = some p →
        extract_message carrier = some (binary_to_text p)) := by
  refine ⟨unframePrefix_spec bits, unframePrefix_eq_none_iff bits, ?_⟩
  intro carrier hc
  subst hc
  constructor
  · rw [extract_message]
    cases h : unframePrefix (carrier.map lsb) <;> simp [h]
  · intro p hp
    rw [extract_message, hp]
    rfl

/-- Witness for C4: the marker at position 0 yields the empty prefix,
and a marker-free string yields no occurrence at all. -/
theorem claim_C4_witness :
    (∃ r, END_MARKER ++ [true] = [] ++ END_MARKER ++ r) ∧
    ∀ l r, ([true] : List Bool) ≠ l ++ END_MARKER ++ r := by
  constructor
  · exact ((claim_C4_unframe_semantics (END_MARKER ++ [true])).1 []
      (by decide)).1
  · exact (claim_C4_unframe_semantics [true]).2.1.mp (by decide)

/-- C9 (counterexample): the reports' recommended message length is the
character capacity minus 50, not minus the 2-character marker overhead
the claim states: for a 100x100 RGB image it is 3700 while
capacity-minus-2 is 3748, and similarly for an 80000-sample audio
carrier. -/
theorem claim_C9_counterexample :
    (get_image_capacity 100 100 3).recommended_message_length ≠
      ((get_image_capacity 100 100 3).max_characters : Int) - 2 ∧
    (get_audio_capacity 80000).recommended_message_length ≠
      ((get_audio_capacity 80000).max_characters : Int) - 2 ∧
    (get_image_capacity 100 100 3).recommended_message_length = 3700 ∧
    ((get_image_capacity 100 100 3).max_characters : Int) - 2 = 3748 := by
  refine ⟨?_, ?_, ?_, ?_⟩ <;> decide

/-- C9 (amended): the recommended message length equals the character
capacity (total embeddable bits divided by 8) minus the fixed safety
margin of 50 characters, for both capacity reports. -/
theorem claim_C9_amended (h w c n : Nat) :
    (get_image_capacity h w c).max_characters = h * w * c / 8 ∧
    (get_image_capacity h w c).recommended_message_length =
      ((h * w * c / 8 : Nat) : Int) - 50 ∧
    (get_audio_capacity n).max_characters = n / 8 ∧
    (get_audio_capacity n).recommended_message_length =
      ((n / 8 : Nat) : Int) - 50 :=
  ⟨rfl, rfl, rfl, rfl⟩

/-- C10: the hide wrappers never propagate an exception (they are total
boolean functions over the outcomes of their effects); they return `true`
exactly when the carrier loaded, the framed payload fit, and the output
file was written, and `false` in every other case — in particular a
capacity violation surfaces only as `false`. -/
theorem claim_C10_hide_returns_bool
    (imageLoad audioLoad : Except String (List Nat)) (msg : List Nat)
    (saveOk writeOk : Bool) :
    (hide_message_in_image imageLoad msg saveOk = true ↔
      saveOk = true ∧ ∃ px, imageLoad = Except.ok px ∧
        (text_to_binary msg ++ END_MARKER).length ≤ px.length) ∧
    (hide_message_in_audio audioLoad msg writeOk = true ↔
      writeOk = true ∧ ∃ au, audioLoad = Except.ok au ∧
        (text_to_binary msg ++ END_MARKER).length ≤ au.length) := by
  constructor
  · cases imageLoad with
    | error e => simp [hide_message_in_image]
    | ok px =>
        simp only [hide_message_in_image]
        by_cases hcap :
            (text_to_binary msg ++ END_MARKER).length ≤ px.length
        · rw [hideCoreImage_eq_ok px msg hcap]
          constructor
          · intro hs
            exact ⟨hs, px, rfl, hcap⟩
          · rintro ⟨hs, -⟩
            exact hs
        · rw [hideCoreImage_eq_error px msg (by omega)]
          simp only [Bool.false_eq_true, false_iff]
          rintro ⟨-, px', hpx', hle⟩
          obtain rfl : px = px' := by
            simpa using hpx'
          omega
  · cases audioLoad with
    | error e => simp [hide_message_in_audio]
    | ok au =>
        simp only [hide_message_in_audio]
        by_cases hcap :
            (text_to_binary msg ++ END_MARKER).length ≤ au.length
        · rw [hideCoreAudio_eq_ok au msg hcap]
          constructor
          · intro hs
            exact ⟨hs, au, rfl, hcap⟩
          · rintro ⟨hs, -⟩
            exact hs
        · rw [hideCoreAudio_eq_error au msg (by omega)]
          simp only [Bool.false_eq_true, false_iff]
          rintro ⟨-, au', hau', hle⟩
          obtain rfl : au = au' := by
            simpa using hau'
          omega

/-- Witness for C10: a successful hide returns `true`; an overfull
carrier makes the wrapper return `false` rather than raise. -/
theorem claim_C10_witness :
    hide_message_in_image (Except.ok (List.replicate 24 0)) [65] true =
      true :=
  (claim_C10_hide_returns_bool (Except.ok (List.replicate 24 0))
    (Except.ok []) [65] true true).1.mpr
    ⟨rfl, List.replicate 24 0, rfl, by decide⟩

end StegoX

/-! ### Claim theorems: voice gate -/

namespace StegoX

theorem calculate_similarity_jaccard (text1 text2 : List String)
    (hne1 : text1 ≠ []) (hne2 : text2 ≠ []) :
    calculate_similarity text1 text2 =
      ((text1.toFinset ∩ text2.toFinset).card : ℚ) /
        ((text1.toFinset ∪ text2.toFinset).card : ℚ) := by
  have hw1 : text1.toFinset ≠ ∅ := by
    rw [Ne, List.toFinset_eq_empty_iff]
    exact hne1
  have hw2 : text2.toFinset ≠ ∅ := by
    rw [Ne, List.toFinset_eq_empty_iff]
    exact hne2
  have hu : 0 < (text1.toFinset ∪ text2.toFinset).card := by
    rw [Finset.card_pos]
    obtain ⟨x, hx⟩ := List.exists_mem_of_ne_nil text1 hne1
    exact ⟨x, Finset.mem_union_left _ (List.mem_toFinset.mpr hx)⟩
  rw [calculate_similarity]
  rw [if_neg (by
    rintro (h | h)
    · exact hne1 h
    · exact hne2 h)]
  by_cases heq : text1 = text2
  · rw [if_pos heq]
    subst heq
    rw [Finset.inter_self, Finset.union_self]
    rw [div_self (by
      rw [Ne, Nat.cast_eq_zero, Finset.card_eq_zero]
      exact hw1)]
  · rw [if_neg heq]
    rw [if_neg (by
      rintro (h | h)
      · exact hw1 h
      · exact hw2 h)]
    rw [if_pos hu]

theorem calculate_similarity_eq_one_iff (text1 text2 : List String)
    (hne1 : text1 ≠ []) (hne2 : text2 ≠ []) :
    calculate_similarity text1 text2 = 1 ↔
      text1.toFinset = text2.toFinset := by
  have hu : 0 < (text1.toFinset ∪ text2.toFinset).card := by
    rw [Finset.card_pos]
    obtain ⟨x, hx⟩ := List.exists_mem_of_ne_nil text1 hne1
    exact ⟨x, Finset.mem_union_left _ (List.mem_toFinset.mpr hx)⟩
  have hu0 : ((text1.toFinset ∪ text2.toFinset).card : ℚ) ≠ 0 := by
    rw [Ne, Nat.cast_eq_zero]
    omega
  rw [calculate_similarity_jaccard text1 text2 hne1 hne2,
    div_eq_one_iff_eq hu0]
  constructor
  · intro hcc
    have hcard : (text1.toFinset ∩ text2.toFinset).card =
        (text1.toFinset ∪ text2.toFinset).card := by
      exact_mod_cast hcc
    have hsub : text1.toFinset ∩ text2.toFinset ⊆
        text1.toFinset ∪ text2.toFinset :=
      Finset.inter_subset_left.trans Finset.subset_union_left
    have heq2 : text1.toFinset ∩ text2.toFinset =
        text1.toFinset ∪ text2.toFinset :=
      Finset.eq_of_subset_of_card_le hsub (le_of_eq hcard.symm)
    apply Finset.Subset.antisymm
    · intro x hx
      have : x ∈ text1.toFinset ∪ text2.toFinset :=
        Finset.mem_union_left _ hx
      rw [← heq2] at this
      exact (Finset.mem_inter.mp this).2
    · intro x hx
      have : x ∈ text1.toFinset ∪ text2.toFinset :=
        Finset.mem_union_right _ hx
      rw [← heq2] at this
      exact (Finset.mem_inter.mp this).1
  · intro hst
    rw [hst, Finset.inter_self, Finset.union_self]

/-- C5: similarity scoring.  On normalized texts (represented by their
whitespace token lists): the score is 0 when either text is empty, equals
the Jaccard index of the distinct token sets otherwise (so 1 exactly when
the token sets coincide — covering the exact-string shortcut and
reordered tokens), and the verify decision passes exactly when
`score >= threshold`, so at threshold 0.8 a 0.79 score is rejected and
0.80 verified. -/
theorem claim_C5_similarity (text1 text2 : List String) (threshold : ℚ) :
    ((text1 = [] ∨ text2 = []) → calculate_similarity text1 text2 = 0) ∧
    (text1 ≠ [] → text2 ≠ [] →
      calculate_similarity text1 text2 =
        ((text1.toFinset ∩ text2.toFinset).card : ℚ) /
          ((text1.toFinset ∪ text2.toFinset).card : ℚ)) ∧
    (text1 ≠ [] → text2 ≠ [] →
      (calculate_similarity text1 text2 = 1 ↔
        text1.toFinset = text2.toFinset)) ∧
    (verify_decision (calculate_similarity text1 text2) threshold = true ↔
      threshold ≤ calculate_similarity text1 text2) ∧
    calculate_similarity ["hello", "world"] ["world", "hello"] = 1 ∧
    verify_decision (79 / 100) (8 / 10) = false ∧
    verify_decision (80 / 100) (8 / 10) = true := by
  refine ⟨?_, calculate_similarity_jaccard text1 text2,
    calculate_similarity_eq_one_iff text1 text2, ?_, ?_, ?_, ?_⟩
  · intro h
    rw [calculate_similarity, if_pos h]
  · rw [verify_decision]
    exact decide_eq_true_iff
  · rw [calculate_similarity_eq_one_iff _ _ (by simp) (by simp)]
    decide
  · rw [verify_decision, decide_eq_false_iff_not]
    norm_num
  · rw [verify_decision, decide_eq_true_iff]
    norm_num

/-- Witness for C5: concrete empty-, reordered- and threshold-cases
obtained from the claim theorem. -/
theorem claim_C5_witness :
    calculate_similarity [] ["hello"] = 0 ∧
    calculate_similarity ["hello", "world"] ["world", "hello"] = 1 ∧
    verify_decision (79 / 100) (8 / 10) = false ∧
    verify_decision (80 / 100) (8 / 10) = true := by
  refine ⟨?_, ?_, ?_, ?_⟩
  · exact (claim_C5_similarity [] ["hello"] 0).1 (Or.inl rfl)
  · exact (claim_C5_similarity [] [] 0).2.2.2.2.1
  · exact (claim_C5_similarity [] [] 0).2.2.2.2.2.1
  · exact (claim_C5_similarity [] [] 0).2.2.2.2.2.2

/-- C8: transcription fails soft.  The try/except body is a total
function of the underlying effect outcome: any model or conversion error
yields the failed transcript (empty text, empty normalized text, language
"unknown", confidence 0, success false, the reason attached) instead of
propagating; a successful model call yields the stripped raw text, its
normalization, the detected language defaulted to "unknown", and the
mean per-segment log-probability (0 when no segments), with success
true. -/
theorem claim_C8_transcribe_fails_soft (normalize : String → String)
    (outcome : Except String WhisperResult) :
    (∀ e, outcome = Except.error e →
      transcribe_audio normalize outcome =
        { text := "", normalized_text := "", language := "unknown",
          confidence := 0, success := false, error := some e }) ∧
    (∀ r, outcome = Except.ok r →
      transcribe_audio normalize outcome =
        { text := r.text.trim, normalized_text := normalize r.text.trim,
          language := r.language.getD "unknown",
          confidence := if r.segments.isEmpty then 0
            else r.segments.sum / (r.segments.length : ℚ),
          success := true, error := none }) ∧
    ((transcribe_audio normalize outcome).success = false ↔
      ∃ e, outcome = Except.error e) := by
  refine ⟨?_, ?_, ?_⟩
  · rintro e rfl
    rfl
  · rintro r rfl
    rfl
  · cases outcome with
    | error e => simp [transcribe_audio]
    | ok r => simp [transcribe_audio]

/-- Witness for C8: a failed model call produces the failed transcript
with the reason attached. -/
theorem claim_C8_witness :
    transcribe_audio id (Except.error "conversion failed") =
      { text := "", normalized_text := "", language := "unknown",
        confidence := 0, success := false,
        error := some "conversion failed" } :=
  (claim_C8_transcribe_fails_soft id
    (Except.error "conversion failed")).1 "conversion failed" rfl

end StegoX

/-! ### Claim theorems: encryption and the full pipeline -/

namespace StegoX

theorem encrypt_message_def (E : List Nat → List Nat → List Nat)
    (sha256 : List Nat → List Nat) (message password iv : List Nat) :
    encrypt_message E sha256 message password iv =
      base64Encode (iv ++ cbcEncrypt E (derive_key sha256 password) iv
        (pad (utf8Encode message))) := rfl

theorem encrypt_message_bytes_lt_256
    (E D : List Nat → List Nat → List Nat) (sha256 : List Nat → List Nat)
    (hED : BlockCipherPair E D) (message password iv : List Nat)
    (hmsg : ∀ c ∈ message, ValidScalar c)
    (hiv : iv.length = 16) (hivB : ∀ x ∈ iv, x < 256) :
    ∀ x ∈ iv ++ cbcEncrypt E (derive_key sha256 password) iv
      (pad (utf8Encode message)), x < 256 := by
  have hLen : ∀ b, b.length = 16 →
      (E (derive_key sha256 password) b).length = 16 :=
    fun b hb => (hED _ b hb).2.1
  have hByte : ∀ b, b.length = 16 → (∀ x ∈ b, x < 256) →
      ∀ x ∈ E (derive_key sha256 password) b, x < 256 :=
    fun b hb => (hED _ b hb).2.2
  have hctB := cbcEncrypt_lt_256 E (derive_key sha256 password) iv
    (pad (utf8Encode message)) hLen hByte hiv hivB (pad_length_mod _)
    (pad_lt_256 _ (utf8Encode_lt_256 message (fun c hc => (hmsg c hc).1)))
  intro x hx
  rcases List.mem_append.mp hx with hx | hx
  · exact hivB x hx
  · exact hctB x hx

end StegoX

namespace StegoX

/-- C6: encryption non-determinism with round trip.  For any block cipher
satisfying the library contract, two encryptions of the same plaintext
with the same password that draw distinct 16-byte IVs produce different
base64-encoded outputs, and decrypting each with the same password
returns exactly the plaintext. -/
theorem claim_C6_encryption_nondeterminism
    (E D : List Nat → List Nat → List Nat) (sha256 : List Nat → List Nat)
    (hED : BlockCipherPair E D) (message password iv1 iv2 : List Nat)
    (hmsg : ∀ c ∈ message, ValidScalar c)
    (hiv1 : iv1.length = 16) (hiv1B : ∀ x ∈ iv1, x < 256)
    (hiv2 : iv2.length = 16) (hiv2B : ∀ x ∈ iv2, x < 256)
    (hne : iv1 ≠ iv2) :
    encrypt_message E sha256 message password iv1 ≠
      encrypt_message E sha256 message password iv2 ∧
    decrypt_message D sha256 (encrypt_message E sha256 message password iv1)
      password = some message ∧
    decrypt_message D sha256 (encrypt_message E sha256 message password iv2)
      password = some message := by
  refine ⟨?_,
    decrypt_message_encrypt_message E D sha256 hED message password iv1
      hmsg hiv1 hiv1B,
    decrypt_message_encrypt_message E D sha256 hED message password iv2
      hmsg hiv2 hiv2B⟩
  intro heq
  rw [encrypt_message_def, encrypt_message_def] at heq
  have hd1 := encrypt_message_bytes_lt_256 E D sha256 hED message password
    iv1 hmsg hiv1 hiv1B
  have hd2 := encrypt_message_bytes_lt_256 E D sha256 hED message password
    iv2 hmsg hiv2 hiv2B
  have happ := base64Encode_injOn _ _ hd1 hd2 heq
  apply hne
  have h1 : (iv1 ++ cbcEncrypt E (derive_key sha256 password) iv1
      (pad (utf8Encode message))).take 16 = iv1 := by
    conv_lhs => rw [← hiv1]
    exact List.take_left _ _
  have h2 : (iv2 ++ cbcEncrypt E (derive_key sha256 password) iv2
      (pad (utf8Encode message))).take 16 = iv2 := by
    conv_lhs => rw [← hiv2]
    exact List.take_left _ _
  rw [← h1, ← h2, happ]

/-- The identity block cipher: the simplest instance of the library
contract, used to instantiate the abstract primitive in witnesses and
counterexamples. -/
def idCipher : List Nat → List Nat → List Nat := fun _ b => b

theorem idCipher_pair : BlockCipherPair idCipher idCipher :=
  fun _ _ hb => ⟨rfl, hb, fun h => h⟩

/-- A trivial stand-in for the SHA-256 digest in concrete instances. -/
def sha0 : List Nat → List Nat := fun _ => List.replicate 32 0

/-- Witness for C6 at concrete plaintext "HI", two distinct IVs and the
identity block cipher. -/
theorem claim_C6_witness :
    encrypt_message idCipher sha0 [72, 73] [112] (List.replicate 16 0) ≠
      encrypt_message idCipher sha0 [72, 73] [112]
        (1 :: List.replicate 15 0) ∧
    decrypt_message idCipher sha0
      (encrypt_message idCipher sha0 [72, 73] [112] (List.replicate 16 0))
      [112] = some [72, 73] ∧
    decrypt_message idCipher sha0
      (encrypt_message idCipher sha0 [72, 73] [112]
        (1 :: List.replicate 15 0)) [112] = some [72, 73] :=
  claim_C6_encryption_nondeterminism idCipher idCipher sha0 idCipher_pair
    [72, 73] [112] (List.replicate 16 0) (1 :: List.replicate 15 0)
    (by decide) (by decide) (by decide) (by decide) (by decide) (by decide)

end StegoX

namespace StegoX

theorem extract_message_embedLSB (mask : Nat) (hm : mask % 2 = 0)
    (payload : List Bool) (carrier : List Nat)
    (hcap : (payload ++ END_MARKER).length ≤ carrier.length)
    (hno : ∀ i, i < payload.length →
      ¬ END_MARKER.isPrefixOf ((payload ++ END_MARKER).drop i)) :
    extract_message (embedLSB mask (payload ++ END_MARKER) carrier) =
      some (binary_to_text payload) := by
  rw [extract_message, map_lsb_embedLSB mask hm _ carrier hcap,
    unframePrefix_append payload _ hno]
  rfl

/-- C1 (counterexample): the round trip is not universal.  With plaintext
"A", password "p", a 600-element all-zero carrier (capacity 600 well
above the 368 framed bits) and the 16-byte IV `01 44 C0 00...`, the
base64 transport string begins "AUTA", whose bit rendering contains the
END_MARKER pattern at bit offset 7; Reveal therefore cuts the stream
inside the payload, decodes an empty string and fails in decryption,
instead of returning "A".  The early-truncation limitation is documented
by the spec itself in the unframe description. -/
theorem claim_C1_counterexample :
    (hidePipelineImage idCipher sha0 (List.replicate 600 0) [65] [112]
      ([1, 68, 192] ++ List.replicate 13 0)).isOk = true ∧
    ((hidePipelineImage idCipher sha0 (List.replicate 600 0) [65] [112]
      ([1, 68, 192] ++ List.replicate 13 0)).toOption.bind
      (fun st => revealPipeline idCipher sha0 st [112])) = none := by
  constructor
  · decide
  · decide

/-- C1 (amended): pipeline round trip, additionally assuming the marker
bit pattern does not occur in the framed payload before its final
position.  Under that proviso, for every valid plaintext, password,
16-byte IV and carrier of sufficient capacity (image or audio variant),
the Reveal chain run with the same password on the Hide chain's output
returns exactly the plaintext. -/
theorem claim_C1_amended
    (E D : List Nat → List Nat → List Nat) (sha256 : List Nat → List Nat)
    (hED : BlockCipherPair E D)
    (message password iv flat_pixels audio_data : List Nat)
    (hmsg : ∀ c ∈ message, ValidScalar c)
    (hiv : iv.length = 16) (hivB : ∀ x ∈ iv, x < 256)
    (hcapI : (text_to_binary (encrypt_message E sha256 message password iv)
      ++ END_MARKER).length ≤ flat_pixels.length)
    (hcapA : (text_to_binary (encrypt_message E sha256 message password iv)
      ++ END_MARKER).length ≤ audio_data.length)
    (hno : ∀ i, i <
      (text_to_binary (encrypt_message E sha256 message password iv)).length →
      ¬ END_MARKER.isPrefixOf
        ((text_to_binary (encrypt_message E sha256 message password iv) ++
          END_MARKER).drop i)) :
    (∃ st, hidePipelineImage E sha256 flat_pixels message password iv =
        Except.ok st ∧
      revealPipeline D sha256 st password = some message) ∧
    (∃ st, hidePipelineAudio E sha256 audio_data message password iv =
        Except.ok st ∧
      revealPipeline D sha256 st password = some message) := by
  have hencB : ∀ c ∈ encrypt_message E sha256 message password iv,
      c < 128 := by
    rw [encrypt_message_def]
    exact base64Encode_lt_128 _
  have hvalid : ∀ c ∈ encrypt_message E sha256 message password iv,
      ValidScalar c := by
    intro c hc
    have := hencB c hc
    exact ⟨by omega, by omega⟩
  have hb2t : binary_to_text
      (text_to_binary (encrypt_message E sha256 message password iv)) =
      encrypt_message E sha256 message password iv :=
    binary_to_text_text_to_binary _ hvalid
  have hdec : decrypt_message D sha256
      (encrypt_message E sha256 message password iv) password =
      some message :=
    decrypt_message_encrypt_message E D sha256 hED message password iv
      hmsg hiv hivB
  constructor
  · refine ⟨fast_embed_pixels
      (text_to_binary (encrypt_message E sha256 message password iv) ++
        END_MARKER) flat_pixels, ?_, ?_⟩
    · exact hideCoreImage_eq_ok flat_pixels _ hcapI
    · rw [revealPipeline, fast_embed_pixels,
        extract_message_embedLSB 254 (by decide) _ flat_pixels hcapI hno]
      simp only [Option.some_bind]
      rw [hb2t]
      exact hdec
  · refine ⟨audio_embed
      (text_to_binary (encrypt_message E sha256 message password iv) ++
        END_MARKER) audio_data, ?_, ?_⟩
    · exact hideCoreAudio_eq_ok audio_data _ hcapA
    · rw [revealPipeline, audio_embed,
        extract_message_embedLSB 65534 (by decide) _ audio_data hcapA hno]
      simp only [Option.some_bind]
      rw [hb2t]
      exact hdec

/-- Witness for C1 (amended) at plaintext "HI", password "p", the
all-zero IV and 400-element all-zero carriers: the framed payload is 368
bits, the marker pattern first occurs at its final position, and both
pipelines round-trip. -/
theorem claim_C1_witness :
    (∃ st, hidePipelineImage idCipher sha0 (List.replicate 400 0) [72, 73]
        [112] (List.replicate 16 0) = Except.ok st ∧
      revealPipeline idCipher sha0 st [112] = some [72, 73]) ∧
    (∃ st, hidePipelineAudio idCipher sha0 (List.replicate 400 0) [72, 73]
        [112] (List.replicate 16 0) = Except.ok st ∧
      revealPipeline idCipher sha0 st [112] = some [72, 73]) :=
  claim_C1_amended idCipher idCipher sha0 idCipher_pair [72, 73] [112]
    (List.replicate 16 0) (List.replicate 400 0) (List.replicate 400 0)
    (by decide) (by decide) (by decide) (by decide) (by decide) (by decide)

end StegoX
